import Mathlib

/-!
Verification of an LRU cache built on a doubly-linked list
(`src/node.rs`, `src/lru.rs`).

The Rust code stores list nodes in `Rc<RefCell<Node<T>>>` cells: forward
links (`next`), the `head` and the `tail` of the list are strong (owning)
references, `prev` links and the cache index entries are weak references.
We embed this as a slot heap: every allocated cell gets a slot in a
`List (Option (Node T))`; a slot holds `some node` while the cell is
alive and is overwritten with `none` the moment the last strong reference
is dropped (which the Rust code does in `pop_front` / `pop_back`, the only
places a node dies).  Upgrading a weak reference is then just a slot
lookup.  Fresh cells are allocated at the end of the heap, so a slot index
is never reused and a stale weak reference can never accidentally
resolve, exactly as with `Rc`/`Weak`.
-/

namespace LruCache

/-- `Node<T>` from `src/node.rs`: one value plus the two link fields.
`next` is the strong forward link, `prev` the weak backward link; both are
modelled as slot indices into the heap. -/
structure Node (T : Type) where
  value : T
  next : Option Nat
  prev : Option Nat
deriving DecidableEq, Repr

/-- The slot heap holding every allocated `Rc<RefCell<Node<T>>>` cell.
`some nd` = the cell is alive, `none` = the cell was freed (or the slot
was never allocated). -/
abbrev Heap (T : Type) := List (Option (Node T))

/-- Read a heap slot; `none` for freed or out-of-range slots.  This is
what `Weak::upgrade` observes. -/
def hGet (h : Heap T) (i : Nat) : Option (Node T) :=
  (h[i]?).getD none

/-- Overwrite a live heap slot (a `borrow_mut` store). -/
def hSet (h : Heap T) (i : Nat) (nd : Node T) : Heap T :=
  h.set i (some nd)

/-- Drop the last strong reference to a cell: the slot becomes dead. -/
def hFree (h : Heap T) (i : Nat) : Heap T :=
  h.set i none

@[simp] theorem hGet_nil (i : Nat) : hGet ([] : Heap T) i = none := by
  simp [hGet]

theorem hGet_ge {h : Heap T} {i : Nat} (hi : h.length ≤ i) : hGet h i = none := by
  simp [hGet, List.getElem?_eq_none hi]

theorem lt_length_of_hGet_isSome {h : Heap T} {i : Nat}
    (hi : (hGet h i).isSome = true) : i < h.length := by
  by_contra hcon
  rw [hGet_ge (Nat.le_of_not_lt hcon)] at hi
  simp at hi

@[simp] theorem length_hSet (h : Heap T) (i : Nat) (nd : Node T) :
    (hSet h i nd).length = h.length := by
  simp [hSet]

@[simp] theorem length_hFree (h : Heap T) (i : Nat) :
    (hFree h i).length = h.length := by
  simp [hFree]

theorem hGet_hSet_self {h : Heap T} {i : Nat} (hi : i < h.length) (nd : Node T) :
    hGet (hSet h i nd) i = some nd := by
  simp [hGet, hSet, List.getElem?_set_self, hi]

theorem hGet_hSet_ne {h : Heap T} {i j : Nat} (hne : j ≠ i) (nd : Node T) :
    hGet (hSet h i nd) j = hGet h j := by
  simp [hGet, hSet, List.getElem?_set_ne (fun he => hne he.symm)]

theorem hGet_hFree_self (h : Heap T) (i : Nat) :
    hGet (hFree h i) i = none := by
  by_cases hi : i < h.length
  · simp [hGet, hFree, List.getElem?_set_self, hi]
  · exact hGet_ge (by simpa using Nat.le_of_not_lt hi)

theorem hGet_hFree_ne {h : Heap T} {i j : Nat} (hne : j ≠ i) :
    hGet (hFree h i) j = hGet h j := by
  simp [hGet, hFree, List.getElem?_set_ne (fun he => hne he.symm)]

theorem hGet_append_lt {h h₂ : Heap T} {i : Nat} (hi : i < h.length) :
    hGet (h ++ h₂) i = hGet h i := by
  simp [hGet, List.getElem?_append, hi]

theorem hGet_append_self (h : Heap T) (x : Option (Node T)) :
    hGet (h ++ [x]) h.length = x := by
  simp [hGet]

theorem hGet_append_gt {h h₂ : Heap T} {i : Nat} (hi : h.length < i) (hx : h₂.length ≤ 1) :
    hGet (h ++ h₂) i = none := by
  apply hGet_ge
  simp only [List.length_append]
  omega

/-- `Weak::upgrade` on a weak link: resolve iff the target cell is still
alive. -/
def upgrade (h : Heap T) : Option Nat → Option Nat
  | none => none
  | some p => if (hGet h p).isSome then some p else none

/-- The store `x.borrow_mut().prev = p` on a live cell (dead targets
cannot occur in Rust, where the borrowed `Rc` proves liveness). -/
def setPrev (h : Heap T) (i : Nat) (p : Option Nat) : Heap T :=
  match hGet h i with
  | none => h
  | some nd => hSet h i { nd with prev := p }

/-- The store `x.borrow_mut().next = q` on a live cell. -/
def setNext (h : Heap T) (i : Nat) (q : Option Nat) : Heap T :=
  match hGet h i with
  | none => h
  | some nd => hSet h i { nd with next := q }

@[simp] theorem length_setPrev (h : Heap T) (i : Nat) (p : Option Nat) :
    (setPrev h i p).length = h.length := by
  unfold setPrev; split <;> simp

@[simp] theorem length_setNext (h : Heap T) (i : Nat) (q : Option Nat) :
    (setNext h i q).length = h.length := by
  unfold setNext; split <;> simp

theorem hGet_setPrev_ne {h : Heap T} {i j : Nat} (hne : j ≠ i) (p : Option Nat) :
    hGet (setPrev h i p) j = hGet h j := by
  unfold setPrev; split
  · rfl
  · exact hGet_hSet_ne hne _

theorem hGet_setNext_ne {h : Heap T} {i j : Nat} (hne : j ≠ i) (q : Option Nat) :
    hGet (setNext h i q) j = hGet h j := by
  unfold setNext; split
  · rfl
  · exact hGet_hSet_ne hne _

theorem hGet_setPrev_self {h : Heap T} {i : Nat} {nd : Node T}
    (hg : hGet h i = some nd) (p : Option Nat) :
    hGet (setPrev h i p) i = some { nd with prev := p } := by
  unfold setPrev
  rw [hg]
  exact hGet_hSet_self (lt_length_of_hGet_isSome (by simp [hg])) _

theorem hGet_setNext_self {h : Heap T} {i : Nat} {nd : Node T}
    (hg : hGet h i = some nd) (q : Option Nat) :
    hGet (setNext h i q) i = some { nd with next := q } := by
  unfold setNext
  rw [hg]
  exact hGet_hSet_self (lt_length_of_hGet_isSome (by simp [hg])) _

/-- `List<T>` from `src/node.rs` (named `LList` here to avoid clashing
with Lean's `List`): strong `head` and `tail` entry points into the heap
plus the running element count.  The heap travels with the structure so
that the state of every cell — alive or freed — is part of the value. -/
structure LList (T : Type) where
  heap : Heap T
  head : Option Nat
  tail : Option Nat
  count : Nat
deriving DecidableEq, Repr

/-- `List::new()`. -/
def LList.new : LList T :=
  { heap := [], head := none, tail := none, count := 0 }

/-- `List::push_front`: allocate a node, splice it before the current
head (setting the old head's weak `prev` to the new node), bump count. -/
def LList.push_front (l : LList T) (value : T) : LList T :=
  match l.head with
  | none =>
    { heap := l.heap ++ [some ⟨value, none, none⟩],
      head := some l.heap.length, tail := some l.heap.length,
      count := l.count + 1 }
  | some ch =>
    { heap := setPrev (l.heap ++ [some ⟨value, some ch, none⟩]) ch
        (some l.heap.length),
      head := some l.heap.length, tail := l.tail, count := l.count + 1 }

/-- `List::push_back`: allocate a node whose weak `prev` is the current
tail, point the old tail's strong `next` at it, bump count. -/
def LList.push_back (l : LList T) (value : T) : LList T :=
  match l.tail with
  | none =>
    { heap := l.heap ++ [some ⟨value, none, none⟩],
      head := some l.heap.length, tail := some l.heap.length,
      count := l.count + 1 }
  | some ct =>
    { heap := setNext (l.heap ++ [some ⟨value, none, some ct⟩]) ct
        (some l.heap.length),
      head := l.head, tail := some l.heap.length, count := l.count + 1 }

/-- `List::pop_back`: take the tail; upgrade its weak `prev`; on success
clear that node's `next` and make it the tail.  Dropping the strong
`tail` reference (and the predecessor's `next`) frees the popped cell.
`count -= 1` is Rust `usize` subtraction, truncated here; the underflow
panic it hides is treated separately (`pop_back` is reached with
`count = 0` in no well-formed state).  The `hGet _ = none` fallback
branch is unreachable in Rust (the tail is a strong reference). -/
def LList.pop_back (l : LList T) : Option T × LList T :=
  match l.tail with
  | none => (none, l)
  | some tId =>
    match hGet l.heap tId with
    | none => (none, l)
    | some tnd =>
      match tnd.prev with
      | none =>
        (some tnd.value,
          { heap := hFree l.heap tId, head := none, tail := none,
            count := l.count - 1 })
      | some pId =>
        if (hGet l.heap pId).isSome then
          (some tnd.value,
            { heap := hFree (setNext l.heap pId none) tId,
              head := l.head, tail := some pId, count := l.count - 1 })
        else
          (some tnd.value,
            { heap := hFree l.heap tId, head := l.head, tail := none,
              count := l.count - 1 })

/-- `List::pop_front`: take the head; take its `next`; if present, clear
that node's weak `prev` and make it the head, else clear the tail too.
The popped cell is freed when its last strong reference goes. -/
def LList.pop_front (l : LList T) : Option T × LList T :=
  match l.head with
  | none => (none, l)
  | some hId =>
    match hGet l.heap hId with
    | none => (none, l)
    | some hnd =>
      match hnd.next with
      | none =>
        (some hnd.value,
          { heap := hFree l.heap hId, head := none, tail := none,
            count := l.count - 1 })
      | some nId =>
        (some hnd.value,
          { heap := hFree (setPrev l.heap nId none) hId,
            head := some nId, tail := l.tail, count := l.count - 1 })

/-- `List::remove_node`: take the node's `prev` (upgrading the weak
reference against the current heap) and `next`, then re-link by the four
cases of `src/node.rs` lines 148-165.  The caller holds a strong
reference across the call (`&mut NodePtr`), so the node itself is not
freed; its link fields are cleared by the two `take()`s.  Note the count
is NOT touched — faithful to the source.  The `hGet _ = none` outer
fallback is unreachable in Rust (the argument is a live `Rc`). -/
def LList.remove_node (l : LList T) (nId : Nat) : LList T :=
  match hGet l.heap nId with
  | none => l
  | some nd =>
    match upgrade l.heap nd.prev, nd.next with
    | none, none =>
      { l with heap := hSet l.heap nId { nd with next := none, prev := none },
               head := none, tail := none }
    | none, some n =>
      { l with
        heap := setPrev (hSet l.heap nId { nd with next := none, prev := none })
          n none,
        head := some n }
    | some p, none =>
      { l with
        heap := setNext (hSet l.heap nId { nd with next := none, prev := none })
          p none,
        tail := some p }
    | some p, some n =>
      { l with
        heap := setNext
          (setPrev (hSet l.heap nId { nd with next := none, prev := none })
            n (some p))
          p (some n) }

/-- `List::push_node_back`: re-attach an existing (detached) node behind
the current tail.  Count is NOT touched — faithful to the source. -/
def LList.push_node_back (l : LList T) (nId : Nat) : LList T :=
  match l.tail with
  | none =>
    { l with head := some nId, tail := some nId }
  | some ct =>
    { l with heap := setNext (setPrev l.heap nId (some ct)) ct (some nId),
             tail := some nId }

/-- `List::move_node_to_back = remove_node; push_node_back`. -/
def LList.move_node_to_back (l : LList T) (nId : Nat) : LList T :=
  (l.remove_node nId).push_node_back nId

/-- `List::get_weak_tail`: a weak handle to the tail node. -/
def LList.get_weak_tail (l : LList T) : Option Nat :=
  l.tail

/-- `List::len`. -/
def LList.len (l : LList T) : Nat :=
  l.count

/-- The inline store `node.borrow_mut().value = v` performed by
`LRU::put` on a resolved node. -/
def LList.setValue (l : LList T) (nId : Nat) (v : T) : LList T :=
  match hGet l.heap nId with
  | none => l
  | some nd => { l with heap := hSet l.heap nId { nd with value := v } }

/-- `ListIterator<T>` from `src/node.rs`: two independent cursors.  The
Rust iterator holds `Rc` clones; the heap it reads is passed explicitly
(the list is not mutated while iterating — §5 of the spec). -/
structure ListIterator (T : Type) where
  current : Option Nat
  current_back : Option Nat
deriving DecidableEq, Repr

/-- `List::iter`. -/
def LList.iter (l : LList T) : ListIterator T :=
  { current := l.head, current_back := l.tail }

/-- `Iterator::next`: yield the current node's value and advance along
the strong `next` link. -/
def ListIterator.next (it : ListIterator T) (h : Heap T) :
    Option T × ListIterator T :=
  match it.current with
  | none => (none, { it with current := none })
  | some c =>
    match hGet h c with
    | none => (none, { it with current := none })
    | some nd => (some nd.value, { it with current := nd.next })

/-- `DoubleEndedIterator::next_back`: yield the back cursor's value; a
node with no `prev` ends the backward walk, otherwise the weak `prev` is
upgraded to become the new back cursor. -/
def ListIterator.next_back (it : ListIterator T) (h : Heap T) :
    Option T × ListIterator T :=
  match it.current_back with
  | none => (none, { it with current_back := none })
  | some c =>
    match hGet h c with
    | none => (none, { it with current_back := none })
    | some nd =>
      match nd.prev with
      | none => (some nd.value, { it with current_back := none })
      | some p =>
        (some nd.value,
          { it with current_back := if (hGet h p).isSome then some p else none })

/-- Drive one iterator through a schedule of directions (`true` =
`next`, `false` = `next_back`), collecting the yields. -/
def runIter (h : Heap T) : List Bool → ListIterator T → List (Option T)
  | [], _ => []
  | d :: ds, it =>
    let r := if d then it.next h else it.next_back h
    r.1 :: runIter h ds r.2

/-- The cache index `HashMap<K, Weak<...>>`, modelled as an association
list with at most one entry per key (insertion removes the old entry, as
`HashMap::insert` replaces it). -/
def mapLookup [DecidableEq K] : List (K × Nat) → K → Option Nat
  | [], _ => none
  | p :: rest, k => if p.1 = k then some p.2 else mapLookup rest k

/-- `HashMap::insert`: replace any earlier entry for the key. -/
def mapInsert [DecidableEq K] (m : List (K × Nat)) (k : K) (i : Nat) :
    List (K × Nat) :=
  (k, i) :: m.filter (fun p => decide (p.1 ≠ k))

/-- `LRU<K, T>` from `src/lru.rs`. -/
structure LRU (K T : Type) where
  list : LList T
  map : List (K × Nat)
  capacity : Nat
deriving DecidableEq, Repr

/-- `LRU::with_capacity`. -/
def LRU.with_capacity (capacity : Nat) : LRU K T :=
  { list := LList.new, map := [], capacity := capacity }

/-- `LRU::new()`, capacity 10. -/
def LRU.new : LRU K T :=
  LRU.with_capacity 10

/-- `LRU::get`: look the key up; upgrade the weak handle; on a hit read
the value, move the node to the back, return the value.  Both miss paths
return the cache untouched. -/
def LRU.get [DecidableEq K] (c : LRU K T) (k : K) : Option T × LRU K T :=
  match mapLookup c.map k with
  | none => (none, c)
  | some wid =>
    match hGet c.list.heap wid with
    | none => (none, c)
    | some nd =>
      (some nd.value, { c with list := c.list.move_node_to_back wid })

/-- The `let ptr = ...` block of `LRU::put`: look the key up in the
index and upgrade the weak handle; `some` iff both steps succeed. -/
def LRU.resolve [DecidableEq K] (c : LRU K T) (k : K) : Option Nat :=
  match mapLookup c.map k with
  | none => none
  | some wid =>
    match hGet c.list.heap wid with
    | none => none
    | some _ => some wid

/-- `LRU::put`: resolve the key (lookup, then upgrade).  Hit: store the
value in place and move the node to the back.  Miss: push a new node at
the back, index the fresh weak tail handle, and if the length now
exceeds capacity pop one node off the front. -/
def LRU.put [DecidableEq K] (c : LRU K T) (k : K) (v : T) : LRU K T :=
  match c.resolve k with
  | none =>
    let l := c.list.push_back v
    let m :=
      match l.get_weak_tail with
      | none => c.map
      | some wid => mapInsert c.map k wid
    let l2 := if c.capacity < l.len then (l.pop_front).2 else l
    { c with list := l2, map := m }
  | some nid =>
    let l := (c.list.setValue nid v).move_node_to_back nid
    { c with list := l }

/-- Fold a list of key/value pairs through `put`. -/
def LRU.putList [DecidableEq K] (c : LRU K T) (kvs : List (K × T)) : LRU K T :=
  kvs.foldl (fun c p => c.put p.1 p.2) c

/-- One cache operation, for quantifying over call sequences. -/
inductive Op (K T : Type) where
  | get (k : K)
  | put (k : K) (v : T)
deriving DecidableEq, Repr

/-- Apply one operation (the result of a `get` is discarded). -/
def LRU.applyOp [DecidableEq K] (c : LRU K T) : Op K T → LRU K T
  | .get k => (c.get k).2
  | .put k v => c.put k v

/-- Run a sequence of cache operations. -/
def LRU.runOps [DecidableEq K] (c : LRU K T) (ops : List (Op K T)) : LRU K T :=
  ops.foldl LRU.applyOp c

/-! ## Well-formedness: a list is represented by a chain of slot ids -/

/-- The value stored in a (possibly dead) cell. -/
def nodeValue : Option (Node T) → Option T :=
  Option.map Node.value

/-- The link fields of a (possibly dead) cell. -/
def nodeLinks : Option (Node T) → Option (Option Nat × Option Nat)
  | none => none
  | some nd => some (nd.prev, nd.next)

/-- First element of a segment, falling back to what follows it. -/
def ohead (q : Option Nat) : List Nat → Option Nat
  | [] => q
  | a :: _ => some a

/-- Last element of a segment, falling back to what precedes it. -/
def olast (p : Option Nat) (xs : List Nat) : Option Nat :=
  match xs.getLast? with
  | none => p
  | some a => some a

@[simp] theorem ohead_nil (q : Option Nat) : ohead q [] = q := rfl

@[simp] theorem ohead_cons (q : Option Nat) (a : Nat) (xs : List Nat) :
    ohead q (a :: xs) = some a := rfl

@[simp] theorem olast_nil (p : Option Nat) : olast p [] = p := rfl

@[simp] theorem olast_concat (p : Option Nat) (xs : List Nat) (a : Nat) :
    olast p (xs ++ [a]) = some a := by
  simp [olast]

theorem olast_cons (p : Option Nat) (a : Nat) (xs : List Nat) :
    olast p (a :: xs) = olast (some a) xs := by
  cases xs with
  | nil => simp [olast]
  | cons b ys =>
    unfold olast
    rw [List.getLast?_cons_cons]
    cases hg : (b :: ys).getLast? with
    | none => simp [List.getLast?_eq_none_iff] at hg
    | some c => rfl

/-- `chainSeg h p q ch`: the slots `ch` form a consecutive doubly-linked
segment of the heap whose first node's `prev` is `p`, whose last node's
`next` is `q`, and whose inner links match up exactly. -/
def chainSeg (h : Heap T) : Option Nat → Option Nat → List Nat → Bool
  | _, _, [] => true
  | p, q, i :: rest =>
    match hGet h i with
    | none => false
    | some nd =>
      decide (nd.prev = p) && decide (nd.next = ohead q rest) &&
        chainSeg h (some i) q rest

@[simp] theorem chainSeg_nil (h : Heap T) (p q : Option Nat) :
    chainSeg h p q [] = true := rfl

theorem chainSeg_cons {h : Heap T} {p q : Option Nat} {i : Nat} {rest : List Nat} :
    chainSeg h p q (i :: rest) = true ↔
      ∃ nd, hGet h i = some nd ∧ nd.prev = p ∧ nd.next = ohead q rest ∧
        chainSeg h (some i) q rest = true := by
  cases hg : hGet h i with
  | none => simp [chainSeg, hg]
  | some nd => simp [chainSeg, hg, and_assoc]

theorem chainSeg_append (h : Heap T) (p q : Option Nat) (xs ys : List Nat) :
    chainSeg h p q (xs ++ ys) =
      (chainSeg h p (ohead q ys) xs && chainSeg h (olast p xs) q ys) := by
  induction xs generalizing p with
  | nil => simp
  | cons i xs ih =>
    have hh : ohead q (xs ++ ys) = ohead (ohead q ys) xs := by
      cases xs <;> simp
    cases hg : hGet h i with
    | none => simp [chainSeg, hg]
    | some nd =>
      simp only [List.cons_append, chainSeg, hg, List.append_eq, hh, ih (some i),
        olast_cons, Bool.and_assoc]

theorem chainSeg_congr {h h' : Heap T} {ch : List Nat}
    (hag : ∀ j ∈ ch, nodeLinks (hGet h' j) = nodeLinks (hGet h j))
    (p q : Option Nat) :
    chainSeg h' p q ch = chainSeg h p q ch := by
  induction ch generalizing p with
  | nil => rfl
  | cons i rest ih =>
    have hi := hag i (by simp)
    have hrest : ∀ j ∈ rest, nodeLinks (hGet h' j) = nodeLinks (hGet h j) :=
      fun j hj => hag j (by simp [hj])
    cases hg : hGet h i with
    | none =>
      cases hg' : hGet h' i with
      | none => simp [chainSeg, hg, hg']
      | some nd' => rw [hg, hg'] at hi; simp [nodeLinks] at hi
    | some nd =>
      cases hg' : hGet h' i with
      | none => rw [hg, hg'] at hi; simp [nodeLinks] at hi
      | some nd' =>
        rw [hg, hg'] at hi
        simp only [nodeLinks, Option.some.injEq, Prod.mk.injEq] at hi
        simp [chainSeg, hg, hg', hi.1, hi.2, ih hrest]

/-- Representation invariant of `List<T>`: some duplicate-free chain of
live slots carries the links, the entry points and the count, and the
live slots of the heap are exactly the chain members. -/
structure ListRep (l : LList T) (ch : List Nat) : Prop where
  links : chainSeg l.heap none none ch = true
  headEq : l.head = ch.head?
  tailEq : l.tail = ch.getLast?
  countEq : l.count = ch.length
  nodup : ch.Nodup
  domain : ∀ j, j ∈ ch ↔ (hGet l.heap j).isSome = true

/-- State of the list in the middle of `move_node_to_back`: node `i` has
been unlinked by `remove_node` but is kept alive by the caller's strong
reference; the remaining chain `ch` is intact and the count still counts
the detached node. -/
structure DetachedRep (l : LList T) (ch : List Nat) (i : Nat) : Prop where
  links : chainSeg l.heap none none ch = true
  headEq : l.head = ch.head?
  tailEq : l.tail = ch.getLast?
  countEq : l.count = ch.length + 1
  nodup : (i :: ch).Nodup
  domain : ∀ j, (j = i ∨ j ∈ ch) ↔ (hGet l.heap j).isSome = true
  detached : ∃ nd, hGet l.heap i = some nd ∧ nd.prev = none ∧ nd.next = none

theorem ListRep.mem_lt {l : LList T} {ch : List Nat} (hr : ListRep l ch)
    {j : Nat} (hj : j ∈ ch) : j < l.heap.length :=
  lt_length_of_hGet_isSome ((hr.domain j).mp hj)

theorem ListRep.nil_of_head_none {l : LList T} {ch : List Nat}
    (hr : ListRep l ch) (hh : l.head = none) : ch = [] := by
  cases ch with
  | nil => rfl
  | cons a rest => rw [hr.headEq] at hh; simp at hh

theorem ListRep.nil_of_tail_none {l : LList T} {ch : List Nat}
    (hr : ListRep l ch) (hh : l.tail = none) : ch = [] := by
  have := hr.tailEq
  rw [hh] at this
  cases ch with
  | nil => rfl
  | cons a rest =>
    rw [eq_comm, List.getLast?_eq_none_iff] at this
    simp at this

theorem exists_concat_of_getLast? {xs : List Nat} {a : Nat}
    (hx : xs.getLast? = some a) : ∃ ys, xs = ys ++ [a] := by
  cases hxe : xs.getLast? with
  | none => rw [hxe] at hx; cases hx
  | some b =>
    rw [hxe] at hx
    cases hx
    rcases List.getLast?_eq_some_iff.mp hxe with ⟨ys, hys⟩
    exact ⟨ys, hys⟩

/-! ## Frame lemmas: splicing never touches counts, allocations or values -/

/-- Two heaps hold the same values in every slot (links may differ). -/
def sameValues (h h' : Heap T) : Prop :=
  ∀ j, nodeValue (hGet h' j) = nodeValue (hGet h j)

theorem sameValues_refl (h : Heap T) : sameValues h h :=
  fun _ => rfl

theorem sameValues_trans {h h' h'' : Heap T}
    (h1 : sameValues h h') (h2 : sameValues h' h'') : sameValues h h'' :=
  fun j => (h2 j).trans (h1 j)

theorem sameValues_hSet {h : Heap T} {i : Nat} {nd nd' : Node T}
    (hg : hGet h i = some nd) (hv : nd'.value = nd.value) :
    sameValues h (hSet h i nd') := by
  intro j
  by_cases hji : j = i
  · subst hji
    rw [hGet_hSet_self (lt_length_of_hGet_isSome (by simp [hg])), hg]
    simp [nodeValue, hv]
  · rw [hGet_hSet_ne hji]

theorem sameValues_setPrev (h : Heap T) (i : Nat) (p : Option Nat) :
    sameValues h (setPrev h i p) := by
  unfold setPrev
  split
  · exact sameValues_refl _
  case h_2 nd hg => exact sameValues_hSet hg rfl

theorem sameValues_setNext (h : Heap T) (i : Nat) (q : Option Nat) :
    sameValues h (setNext h i q) := by
  unfold setNext
  split
  · exact sameValues_refl _
  case h_2 nd hg => exact sameValues_hSet hg rfl

theorem remove_node_count (l : LList T) (nId : Nat) :
    (l.remove_node nId).count = l.count := by
  unfold LList.remove_node
  split
  · rfl
  · split <;> rfl

theorem remove_node_length (l : LList T) (nId : Nat) :
    (l.remove_node nId).heap.length = l.heap.length := by
  unfold LList.remove_node
  split
  · rfl
  · split <;> simp

theorem remove_node_sameValues (l : LList T) (nId : Nat) :
    sameValues l.heap (l.remove_node nId).heap := by
  unfold LList.remove_node
  split
  · exact sameValues_refl _
  case h_2 nd hg =>
    have hbase : sameValues l.heap
        (hSet l.heap nId { nd with next := none, prev := none }) :=
      sameValues_hSet hg rfl
    split
    · exact hbase
    · exact sameValues_trans hbase (sameValues_setPrev _ _ _)
    · exact sameValues_trans hbase (sameValues_setNext _ _ _)
    · exact sameValues_trans hbase
        (sameValues_trans (sameValues_setPrev _ _ _) (sameValues_setNext _ _ _))

theorem push_node_back_count (l : LList T) (nId : Nat) :
    (l.push_node_back nId).count = l.count := by
  unfold LList.push_node_back
  split <;> rfl

theorem push_node_back_length (l : LList T) (nId : Nat) :
    (l.push_node_back nId).heap.length = l.heap.length := by
  unfold LList.push_node_back
  split <;> simp

theorem push_node_back_sameValues (l : LList T) (nId : Nat) :
    sameValues l.heap (l.push_node_back nId).heap := by
  unfold LList.push_node_back
  split
  · exact sameValues_refl _
  · exact sameValues_trans (sameValues_setPrev _ _ _) (sameValues_setNext _ _ _)

theorem move_node_to_back_count (l : LList T) (nId : Nat) :
    (l.move_node_to_back nId).count = l.count := by
  unfold LList.move_node_to_back
  rw [push_node_back_count, remove_node_count]

theorem move_node_to_back_length (l : LList T) (nId : Nat) :
    (l.move_node_to_back nId).heap.length = l.heap.length := by
  unfold LList.move_node_to_back
  rw [push_node_back_length, remove_node_length]

theorem move_node_to_back_sameValues (l : LList T) (nId : Nat) :
    sameValues l.heap (l.move_node_to_back nId).heap :=
  sameValues_trans (remove_node_sameValues l nId)
    (push_node_back_sameValues (l.remove_node nId) nId)

/-! ## Preservation of the representation invariant by the list operations -/

theorem head?_append_left {xs : List Nat} (ys : List Nat) (hx : xs ≠ []) :
    (xs ++ ys).head? = xs.head? := by
  cases xs with
  | nil => exact absurd rfl hx
  | cons a rest => rfl

theorem new_rep : ListRep (LList.new : LList T) [] := by
  refine ⟨rfl, rfl, rfl, rfl, List.nodup_nil, ?_⟩
  intro j
  simp [LList.new]

theorem push_back_rep {l : LList T} {ch : List Nat} (hr : ListRep l ch) (v : T) :
    ListRep (l.push_back v) (ch ++ [l.heap.length]) := by
  unfold LList.push_back
  cases ht : l.tail with
  | none =>
    have hch : ch = [] := hr.nil_of_tail_none ht
    subst hch
    have hc0 : l.count = 0 := hr.countEq
    refine ⟨?_, rfl, rfl, by simp [hc0], by simp, ?_⟩
    · simp [chainSeg, hGet_append_self]
    · intro j
      rcases Nat.lt_trichotomy j l.heap.length with hj | hj | hj
      · rw [hGet_append_lt hj]
        have hns : (hGet l.heap j).isSome ≠ true := by
          intro hs
          have := (hr.domain j).mpr hs
          simp at this
        simp only [List.nil_append, List.mem_singleton]
        constructor
        · intro he; omega
        · intro hs; exact absurd hs hns
      · subst hj
        simp [hGet_append_self]
      · rw [hGet_append_gt hj (by simp)]
        simp only [List.nil_append, List.mem_singleton]
        constructor
        · intro he; omega
        · intro hs; simp at hs
  | some ct =>
    have hgl : ch.getLast? = some ct := hr.tailEq ▸ ht
    rcases exists_concat_of_getLast? hgl with ⟨ch₀, hch⟩
    have hctch : ct ∈ ch := by rw [hch]; simp
    have hctlt : ct < l.heap.length := hr.mem_lt hctch
    have hctni : ct ∉ ch₀ := by
      have := hr.nodup
      rw [hch, List.nodup_append] at this
      intro hmem
      exact this.2.2 hmem (by simp)
    have hsplit := hr.links
    rw [hch, chainSeg_append] at hsplit
    rcases Bool.and_eq_true_iff.mp hsplit with ⟨hseg0, hsegct⟩
    rcases chainSeg_cons.mp hsegct with ⟨cnd, hgct, hcp, hcn, -⟩
    have hg1ct : hGet (l.heap ++ [some ⟨v, none, some ct⟩]) ct = some cnd := by
      rw [hGet_append_lt hctlt, hgct]
    have hg2ct :
        hGet (setNext (l.heap ++ [some ⟨v, none, some ct⟩]) ct
          (some l.heap.length)) ct = some { cnd with next := some l.heap.length } :=
      hGet_setNext_self hg1ct _
    have hNct : l.heap.length ≠ ct := by omega
    have hg2N :
        hGet (setNext (l.heap ++ [some ⟨v, none, some ct⟩]) ct
          (some l.heap.length)) l.heap.length = some ⟨v, none, some ct⟩ := by
      rw [hGet_setNext_ne hNct, hGet_append_self]
    have hg2other : ∀ j, j ≠ ct → j ≠ l.heap.length →
        hGet (setNext (l.heap ++ [some ⟨v, none, some ct⟩]) ct
          (some l.heap.length)) j = hGet l.heap j := by
      intro j hjct hjN
      rw [hGet_setNext_ne hjct]
      rcases Nat.lt_trichotomy j l.heap.length with hj | hj | hj
      · exact hGet_append_lt hj
      · exact absurd hj hjN
      · rw [hGet_append_gt hj (by simp), hGet_ge (by omega)]
    refine ⟨?_, ?_, ?_, ?_, ?_, ?_⟩
    · rw [chainSeg_append]
      refine Bool.and_eq_true_iff.mpr ⟨?_, ?_⟩
      · rw [hch, chainSeg_append]
        refine Bool.and_eq_true_iff.mpr ⟨?_, ?_⟩
        · have hcongr : ∀ j ∈ ch₀,
              nodeLinks (hGet (setNext (l.heap ++ [some ⟨v, none, some ct⟩]) ct
                (some l.heap.length)) j) = nodeLinks (hGet l.heap j) := by
            intro j hj
            have hjct : j ≠ ct := fun he => hctni (he ▸ hj)
            have hjN : j ≠ l.heap.length := by
              have : j < l.heap.length := hr.mem_lt (by rw [hch]; simp [hj])
              omega
            rw [hg2other j hjct hjN]
          rw [chainSeg_congr hcongr]
          simpa using hseg0
        · refine chainSeg_cons.mpr ⟨_, hg2ct, ?_, ?_, by simp⟩
          · simpa using hcp
          · simp
      · refine chainSeg_cons.mpr ⟨_, hg2N, ?_, ?_, by simp⟩
        · rw [hch]; simp
        · simp
    · rw [head?_append_left _ (by rw [hch]; simp)]
      exact hr.headEq
    · simp
    · simp [hr.countEq]
    · rw [List.nodup_append]
      refine ⟨hr.nodup, by simp, ?_⟩
      intro a ha hb
      have : a < l.heap.length := hr.mem_lt ha
      simp only [List.mem_singleton] at hb
      omega
    · intro j
      by_cases hjN : j = l.heap.length
      · subst hjN
        rw [hg2N]
        simp
      · by_cases hjct : j = ct
        · subst hjct
          rw [hg2ct]
          simp [hctch]
        · rw [hg2other j hjct hjN]
          rw [List.mem_append]
          have := hr.domain j
          simp only [List.mem_singleton]
          constructor
          · rintro (hin | he)
            · exact (this).mp hin
            · exact absurd he hjN
          · intro hs; exact Or.inl (this.mpr hs)

theorem push_front_rep {l : LList T} {ch : List Nat} (hr : ListRep l ch) (v : T) :
    ListRep (l.push_front v) (l.heap.length :: ch) := by
  unfold LList.push_front
  cases hh : l.head with
  | none =>
    have hch : ch = [] := hr.nil_of_head_none hh
    subst hch
    have hc0 : l.count = 0 := hr.countEq
    refine ⟨?_, rfl, rfl, by simp [hc0], by simp, ?_⟩
    · simp [chainSeg, hGet_append_self]
    · intro j
      rcases Nat.lt_trichotomy j l.heap.length with hj | hj | hj
      · rw [hGet_append_lt hj]
        have hns : (hGet l.heap j).isSome ≠ true := by
          intro hs
          have := (hr.domain j).mpr hs
          simp at this
        simp only [List.mem_singleton]
        constructor
        · intro he; omega
        · intro hs; exact absurd hs hns
      · subst hj
        simp [hGet_append_self]
      · rw [hGet_append_gt hj (by simp)]
        simp only [List.mem_singleton]
        constructor
        · intro he; omega
        · intro hs; simp at hs
  | some chd =>
    have hch : ch.head? = some chd := hr.headEq ▸ hh
    rcases ch with - | ⟨a, ch₁⟩
    · simp at hch
    obtain rfl : chd = a := by
      simp only [List.head?_cons, Option.some.injEq] at hch
      exact hch.symm
    have hchdlt : chd < l.heap.length := hr.mem_lt (by simp)
    have hchdni : chd ∉ ch₁ := by
      have := hr.nodup
      rw [List.nodup_cons] at this
      exact this.1
    rcases chainSeg_cons.mp hr.links with ⟨hnd, hgchd, hhp, hhn, hseg1⟩
    have hg1chd : hGet (l.heap ++ [some ⟨v, some chd, none⟩]) chd = some hnd := by
      rw [hGet_append_lt hchdlt, hgchd]
    have hg2chd :
        hGet (setPrev (l.heap ++ [some ⟨v, some chd, none⟩]) chd
          (some l.heap.length)) chd = some { hnd with prev := some l.heap.length } :=
      hGet_setPrev_self hg1chd _
    have hNchd : l.heap.length ≠ chd := by omega
    have hg2N :
        hGet (setPrev (l.heap ++ [some ⟨v, some chd, none⟩]) chd
          (some l.heap.length)) l.heap.length = some ⟨v, some chd, none⟩ := by
      rw [hGet_setPrev_ne hNchd, hGet_append_self]
    have hg2other : ∀ j, j ≠ chd → j ≠ l.heap.length →
        hGet (setPrev (l.heap ++ [some ⟨v, some chd, none⟩]) chd
          (some l.heap.length)) j = hGet l.heap j := by
      intro j hjchd hjN
      rw [hGet_setPrev_ne hjchd]
      rcases Nat.lt_trichotomy j l.heap.length with hj | hj | hj
      · exact hGet_append_lt hj
      · exact absurd hj hjN
      · rw [hGet_append_gt hj (by simp), hGet_ge (by omega)]
    refine ⟨?_, rfl, ?_, ?_, ?_, ?_⟩
    · refine chainSeg_cons.mpr ⟨_, hg2N, rfl, by simp, ?_⟩
      refine chainSeg_cons.mpr ⟨_, hg2chd, by simp, ?_, ?_⟩
      · simpa using hhn
      · have hcongr : ∀ j ∈ ch₁,
            nodeLinks (hGet (setPrev (l.heap ++ [some ⟨v, some chd, none⟩]) chd
              (some l.heap.length)) j) = nodeLinks (hGet l.heap j) := by
          intro j hj
          have hjchd : j ≠ chd := fun he => hchdni (he ▸ hj)
          have hjN : j ≠ l.heap.length := by
            have : j < l.heap.length := hr.mem_lt (by simp [hj])
            omega
          rw [hg2other j hjchd hjN]
        rw [chainSeg_congr hcongr]
        exact hseg1
    · rw [List.getLast?_cons_cons]
      exact hr.tailEq
    · simp [hr.countEq]
    · rw [List.nodup_cons]
      refine ⟨?_, hr.nodup⟩
      intro hmem
      have : l.heap.length < l.heap.length := hr.mem_lt hmem
      omega
    · intro j
      by_cases hjN : j = l.heap.length
      · subst hjN
        rw [hg2N]
        simp
      · by_cases hjchd : j = chd
        · subst hjchd
          rw [hg2chd]
          simp
        · rw [hg2other j hjchd hjN]
          have := hr.domain j
          simp only [List.mem_cons] at this ⊢
          constructor
          · rintro (he | hin)
            · exact absurd he hjN
            · exact this.mp hin
          · intro hs; exact Or.inr (this.mpr hs)

theorem pop_front_nil {l : LList T} (hr : ListRep l []) : l.pop_front = (none, l) := by
  have hh : l.head = none := by rw [hr.headEq]; rfl
  unfold LList.pop_front
  rw [hh]

theorem pop_back_nil {l : LList T} (hr : ListRep l []) : l.pop_back = (none, l) := by
  have ht : l.tail = none := by rw [hr.tailEq]; rfl
  unfold LList.pop_back
  rw [ht]

theorem pop_front_rep {l : LList T} {i : Nat} {ch : List Nat}
    (hr : ListRep l (i :: ch)) :
    (l.pop_front).1 = nodeValue (hGet l.heap i) ∧
    ListRep (l.pop_front).2 ch ∧
    hGet (l.pop_front).2.heap i = none ∧
    (∀ j, j ≠ i → nodeValue (hGet (l.pop_front).2.heap j) = nodeValue (hGet l.heap j)) ∧
    (l.pop_front).2.heap.length = l.heap.length := by
  have hh : l.head = some i := by rw [hr.headEq]; rfl
  rcases chainSeg_cons.mp hr.links with ⟨hnd, hgi, hip, hin, hseg1⟩
  have hndpi : i ∉ ch := by
    have := hr.nodup
    rw [List.nodup_cons] at this
    exact this.1
  cases ch with
  | nil =>
    have hin' : hnd.next = none := hin
    simp only [LList.pop_front, hh, hgi, hin']
    refine ⟨by simp [nodeValue, hgi], ⟨rfl, rfl, rfl, ?_, by simp, ?_⟩,
      hGet_hFree_self _ _, ?_, by simp⟩
    · have := hr.countEq
      simp at this
      simp [this]
    · intro j
      by_cases hji : j = i
      · subst hji
        rw [hGet_hFree_self]
        simp
      · rw [hGet_hFree_ne hji]
        have := hr.domain j
        simp only [List.mem_singleton] at this
        simp only [List.not_mem_nil, false_iff]
        intro hs
        exact hji (this.mpr hs)
    · intro j hji
      rw [hGet_hFree_ne hji]
  | cons n ch₁ =>
    have hin' : hnd.next = some n := hin
    simp only [LList.pop_front, hh, hgi, hin']
    rcases chainSeg_cons.mp hseg1 with ⟨nnd, hgn, hnp, hnn, hseg2⟩
    have hni : n ≠ i := by
      intro he
      exact hndpi (he ▸ List.mem_cons_self n ch₁)
    have hnni : n ∉ ch₁ := by
      have := hr.nodup
      rw [List.nodup_cons, List.nodup_cons] at this
      exact this.2.1
    have hini : i ∉ ch₁ := fun hmem => hndpi (List.mem_cons_of_mem n hmem)
    have hgn' : hGet (hFree (setPrev l.heap n none) i) n =
        some { nnd with prev := none } := by
      rw [hGet_hFree_ne hni, hGet_setPrev_self hgn]
    have hgother : ∀ j, j ≠ i → j ≠ n →
        hGet (hFree (setPrev l.heap n none) i) j = hGet l.heap j := by
      intro j hji hjn
      rw [hGet_hFree_ne hji, hGet_setPrev_ne hjn]
    refine ⟨by simp [nodeValue, hgi], ⟨?_, rfl, ?_, ?_, ?_, ?_⟩,
      hGet_hFree_self _ _, ?_, by simp⟩
    · refine chainSeg_cons.mpr ⟨_, hgn', by simp, ?_, ?_⟩
      · simpa using hnn
      · have hcongr : ∀ j ∈ ch₁,
            nodeLinks (hGet (hFree (setPrev l.heap n none) i) j) =
              nodeLinks (hGet l.heap j) := by
          intro j hj
          have hji : j ≠ i := fun he => hini (he ▸ hj)
          have hjn : j ≠ n := fun he => hnni (he ▸ hj)
          rw [hgother j hji hjn]
        rw [chainSeg_congr hcongr]
        exact hseg2
    · rw [hr.tailEq, List.getLast?_cons_cons]
    · have := hr.countEq
      simp at this
      simp [this]
    · have := hr.nodup
      rw [List.nodup_cons] at this
      exact this.2
    · intro j
      by_cases hji : j = i
      · subst hji
        rw [hGet_hFree_self]
        simp [hndpi]
      · by_cases hjn : j = n
        · subst hjn
          rw [hgn']
          simp
        · rw [hgother j hji hjn]
          have := hr.domain j
          simp only [List.mem_cons] at this ⊢
          constructor
          · intro hin2
            exact this.mp (Or.inr hin2)
          · intro hs
            rcases this.mpr hs with he | hin2
            · exact absurd he hji
            · exact hin2
    · intro j hji
      rw [hGet_hFree_ne hji]
      exact (sameValues_setPrev l.heap n none) j

theorem pop_back_rep {l : LList T} {i : Nat} {ch : List Nat}
    (hr : ListRep l (ch ++ [i])) :
    (l.pop_back).1 = nodeValue (hGet l.heap i) ∧ ListRep (l.pop_back).2 ch := by
  have ht : l.tail = some i := by rw [hr.tailEq, List.getLast?_concat]
  have hsplit := hr.links
  rw [chainSeg_append] at hsplit
  rcases Bool.and_eq_true_iff.mp hsplit with ⟨hseg0, hsegi⟩
  rcases chainSeg_cons.mp hsegi with ⟨tnd, hgi, htpre, -, -⟩
  have hini : i ∉ ch := by
    have := hr.nodup
    rw [List.nodup_append] at this
    intro hmem
    exact this.2.2 hmem (by simp)
  cases hche : ch.getLast? with
  | none =>
    have hch : ch = [] := by
      cases ch with
      | nil => rfl
      | cons a rest => rw [List.getLast?_eq_none_iff] at hche; simp at hche
    subst hch
    have htp : tnd.prev = none := by simpa using htpre
    simp only [LList.pop_back, ht, hgi, htp]
    refine ⟨by simp [nodeValue, hgi], rfl, rfl, rfl, ?_, by simp, ?_⟩
    · have := hr.countEq
      simp at this
      simp [this]
    · intro j
      by_cases hji : j = i
      · subst hji
        rw [hGet_hFree_self]
        simp
      · rw [hGet_hFree_ne hji]
        have := hr.domain j
        simp only [List.nil_append, List.mem_singleton] at this
        simp only [List.not_mem_nil, false_iff]
        intro hs
        exact hji (this.mpr hs)
  | some p =>
    rcases exists_concat_of_getLast? hche with ⟨ch₀, hch⟩
    have htp : tnd.prev = some p := by
      rw [htpre, hch, olast_concat]
    have hpch : p ∈ ch := by rw [hch]; simp
    have hpi : p ≠ i := fun he => hini (he ▸ hpch)
    have hpup : (hGet l.heap p).isSome = true :=
      (hr.domain p).mp (by simp [hpch])
    rcases Option.isSome_iff_exists.mp hpup with ⟨pnd, hgp⟩
    have hpni : p ∉ ch₀ := by
      have := hr.nodup
      rw [hch, List.nodup_append, List.nodup_append] at this
      intro hmem
      exact this.1.2.2 hmem (by simp)
    rw [hch, chainSeg_append] at hseg0
    rcases Bool.and_eq_true_iff.mp hseg0 with ⟨hseg00, hsegp⟩
    rcases chainSeg_cons.mp hsegp with ⟨pnd', hgp', hpp, hpn, -⟩
    have hpnd : pnd = pnd' := by
      rw [hgp] at hgp'
      exact Option.some.inj hgp'
    subst hpnd
    simp only [LList.pop_back, ht, hgi, htp, hpup, if_true]
    have hgp2 : hGet (hFree (setNext l.heap p none) i) p =
        some { pnd with next := none } := by
      rw [hGet_hFree_ne hpi, hGet_setNext_self hgp]
    have hgother : ∀ j, j ≠ i → j ≠ p →
        hGet (hFree (setNext l.heap p none) i) j = hGet l.heap j := by
      intro j hji hjp
      rw [hGet_hFree_ne hji, hGet_setNext_ne hjp]
    refine ⟨by simp [nodeValue, hgi], ?_, ?_, ?_, ?_, ?_, ?_⟩
    · rw [hch, chainSeg_append]
      refine Bool.and_eq_true_iff.mpr ⟨?_, ?_⟩
      · have hcongr : ∀ j ∈ ch₀,
            nodeLinks (hGet (hFree (setNext l.heap p none) i) j) =
              nodeLinks (hGet l.heap j) := by
          intro j hj
          have hji : j ≠ i := by
            intro he
            exact hini (he ▸ (by rw [hch]; simp [hj] : j ∈ ch))
          have hjp : j ≠ p := fun he => hpni (he ▸ hj)
          rw [hgother j hji hjp]
        rw [chainSeg_congr hcongr]
        simpa using hseg00
      · refine chainSeg_cons.mpr ⟨_, hgp2, ?_, by simp, by simp⟩
        simpa using hpp
    · rw [hr.headEq, head?_append_left _ (by rw [hch]; simp)]
    · rw [hch]; simp
    · have := hr.countEq
      simp at this
      simp [this]
    · have := hr.nodup
      rw [List.nodup_append] at this
      exact this.1
    · intro j
      by_cases hji : j = i
      · subst hji
        rw [hGet_hFree_self]
        simp [hini]
      · by_cases hjp : j = p
        · subst hjp
          rw [hgp2]
          simp [hpch]
        · rw [hgother j hji hjp]
          have := hr.domain j
          simp only [List.mem_append, List.mem_singleton] at this
          constructor
          · intro hin2
            exact this.mp (Or.inl hin2)
          · intro hs
            rcases this.mpr hs with hin2 | he
            · exact hin2
            · exact absurd he hji

theorem getLast?_append_cons (xs : List Nat) (a : Nat) (ys : List Nat) :
    (xs ++ a :: ys).getLast? = (a :: ys).getLast? := by
  rw [List.getLast?_append]
  cases hg : (a :: ys).getLast? with
  | none => rw [List.getLast?_eq_none_iff] at hg; cases hg
  | some b => rfl

theorem remove_node_detach {l : LList T} {i : Nat} {a b : List Nat}
    (hr : ListRep l (a ++ i :: b)) :
    DetachedRep (l.remove_node i) (a ++ b) i := by
  have hnodup : (i :: (a ++ b)).Nodup := List.nodup_middle.mp hr.nodup
  have hia : i ∉ a := by
    rw [List.nodup_cons] at hnodup
    intro hm
    exact hnodup.1 (List.mem_append.mpr (Or.inl hm))
  have hib : i ∉ b := by
    rw [List.nodup_cons] at hnodup
    intro hm
    exact hnodup.1 (List.mem_append.mpr (Or.inr hm))
  have hich : i ∈ a ++ i :: b := by simp
  rcases Option.isSome_iff_exists.mp ((hr.domain i).mp hich) with ⟨nd, hgi⟩
  have hilt : i < l.heap.length := hr.mem_lt hich
  have hsplit := hr.links
  rw [chainSeg_append] at hsplit
  rcases Bool.and_eq_true_iff.mp hsplit with ⟨hsega, hsegib⟩
  rcases chainSeg_cons.mp hsegib with ⟨nd', hgi', hiprev, hinext, hsegb⟩
  have hnd : nd = nd' := by
    rw [hgi] at hgi'
    exact Option.some.inj hgi'
  subst hnd
  have hg0i : hGet (hSet l.heap i { nd with next := none, prev := none }) i =
      some { nd with next := none, prev := none } := hGet_hSet_self hilt _
  have hg0ne : ∀ j, j ≠ i →
      hGet (hSet l.heap i { nd with next := none, prev := none }) j =
        hGet l.heap j := fun j hj => hGet_hSet_ne hj _
  cases hae : a.getLast? with
  | none =>
    have ha : a = [] := List.getLast?_eq_none_iff.mp hae
    subst ha
    have hup : upgrade l.heap nd.prev = none := by
      have : nd.prev = none := by simpa using hiprev
      rw [this]; rfl
    cases b with
    | nil =>
      have hnx : nd.next = none := hinext
      simp only [LList.remove_node, hgi, hup, hnx]
      refine ⟨rfl, rfl, rfl, ?_, by simp at hnodup; simp [hnodup], ?_,
        ⟨_, hg0i, rfl, rfl⟩⟩
      · have := hr.countEq
        simp at this
        simp [this]
      · intro j
        by_cases hji : j = i
        · subst hji
          rw [hg0i]
          simp
        · rw [hg0ne j hji]
          have := hr.domain j
          simp only [List.nil_append, List.mem_cons, List.not_mem_nil] at this ⊢
          constructor
          · rintro (he | hf)
            · exact absurd he hji
            · exact absurd hf (by simp)
          · intro hs
            rcases this.mpr hs with he | hf
            · exact absurd he hji
            · exact Or.inr hf
    | cons n b' =>
      have hnx : nd.next = some n := hinext
      simp only [LList.remove_node, hgi, hup, hnx]
      rcases chainSeg_cons.mp hsegb with ⟨nnd, hgn, hnp, hnn, hsegb'⟩
      have hni : n ≠ i := by
        intro he
        exact hib (he ▸ List.mem_cons_self n b')
      have hnb' : n ∉ b' := by
        have := hr.nodup
        simp only [List.nil_append, List.nodup_cons] at this
        exact this.2.1
      have hib' : i ∉ b' := fun hm => hib (List.mem_cons_of_mem n hm)
      have hg0n : hGet (hSet l.heap i { nd with next := none, prev := none }) n =
          some nnd := by
        rw [hg0ne n hni, hgn]
      have hg1n : hGet (setPrev (hSet l.heap i { nd with next := none, prev := none })
          n none) n = some { nnd with prev := none } :=
        hGet_setPrev_self hg0n _
      have hg1i : hGet (setPrev (hSet l.heap i { nd with next := none, prev := none })
          n none) i = some { nd with next := none, prev := none } := by
        rw [hGet_setPrev_ne (fun he => hni he.symm), hg0i]
      have hg1other : ∀ j, j ≠ i → j ≠ n →
          hGet (setPrev (hSet l.heap i { nd with next := none, prev := none })
            n none) j = hGet l.heap j := by
        intro j hji hjn
        rw [hGet_setPrev_ne hjn, hg0ne j hji]
      refine ⟨?_, rfl, ?_, ?_, by simpa using hnodup, ?_, ⟨_, hg1i, rfl, rfl⟩⟩
      · refine chainSeg_cons.mpr ⟨_, hg1n, by simp, ?_, ?_⟩
        · simpa using hnn
        · have hcongr : ∀ j ∈ b',
              nodeLinks (hGet (setPrev
                (hSet l.heap i { nd with next := none, prev := none }) n none) j) =
                nodeLinks (hGet l.heap j) := by
            intro j hj
            have hji : j ≠ i := fun he => hib' (he ▸ hj)
            have hjn : j ≠ n := fun he => hnb' (he ▸ hj)
            rw [hg1other j hji hjn]
          rw [chainSeg_congr hcongr]
          exact hsegb'
      · have := hr.tailEq
        simp only [List.nil_append] at this ⊢
        rw [this, List.getLast?_cons_cons]
      · have := hr.countEq
        simp only [List.nil_append, List.length_cons] at this
        simpa using this
      · intro j
        by_cases hji : j = i
        · subst hji
          rw [hg1i]
          simp
        · by_cases hjn : j = n
          · subst hjn
            rw [hg1n]
            simp
          · rw [hg1other j hji hjn]
            have := hr.domain j
            simp only [List.nil_append, List.mem_cons] at this ⊢
            constructor
            · rintro (he | he | hf)
              · exact absurd he hji
              · exact absurd he hjn
              · exact this.mp (Or.inr (Or.inr hf))
            · intro hs
              rcases this.mpr hs with he | he | hf
              · exact absurd he hji
              · exact Or.inr (Or.inl he)
              · exact Or.inr (Or.inr hf)
  | some p =>
    rcases exists_concat_of_getLast? hae with ⟨a₀, ha⟩
    have hpa : p ∈ a := by rw [ha]; simp
    have hpch : p ∈ a ++ i :: b := List.mem_append.mpr (Or.inl hpa)
    have hpi : p ≠ i := fun he => hia (he ▸ hpa)
    have hpup : (hGet l.heap p).isSome = true := (hr.domain p).mp hpch
    rcases Option.isSome_iff_exists.mp hpup with ⟨pnd, hgp⟩
    have hup : upgrade l.heap nd.prev = some p := by
      have : nd.prev = some p := by rw [hiprev, ha, olast_concat]
      rw [this]
      simp [upgrade, hpup]
    have hpa₀ : p ∉ a₀ := by
      have := hr.nodup
      rw [ha, List.append_assoc, List.nodup_append] at this
      intro hm
      exact this.2.2 hm (by simp)
    have hia₀ : i ∉ a₀ := fun hm => hia (ha ▸ List.mem_append.mpr (Or.inl hm))
    rw [ha, chainSeg_append] at hsega
    rcases Bool.and_eq_true_iff.mp hsega with ⟨hsega₀, hsegp⟩
    rcases chainSeg_cons.mp hsegp with ⟨pnd', hgp', hppv, hpnx, -⟩
    have hpnd : pnd = pnd' := by
      rw [hgp] at hgp'
      exact Option.some.inj hgp'
    subst hpnd
    have hane : a ≠ [] := by rw [ha]; simp
    cases b with
    | nil =>
      have hnx : nd.next = none := hinext
      simp only [LList.remove_node, hgi, hup, hnx]
      have hg0p : hGet (hSet l.heap i { nd with next := none, prev := none }) p =
          some pnd := by
        rw [hg0ne p hpi, hgp]
      have hg1p : hGet (setNext (hSet l.heap i { nd with next := none, prev := none })
          p none) p = some { pnd with next := none } :=
        hGet_setNext_self hg0p _
      have hg1i : hGet (setNext (hSet l.heap i { nd with next := none, prev := none })
          p none) i = some { nd with next := none, prev := none } := by
        rw [hGet_setNext_ne (Ne.symm hpi), hg0i]
      have hg1other : ∀ j, j ≠ i → j ≠ p →
          hGet (setNext (hSet l.heap i { nd with next := none, prev := none })
            p none) j = hGet l.heap j := by
        intro j hji hjp
        rw [hGet_setNext_ne hjp, hg0ne j hji]
      refine ⟨?_, ?_, ?_, ?_, hnodup, ?_, ⟨_, hg1i, rfl, rfl⟩⟩
      · rw [List.append_nil, ha, chainSeg_append]
        refine Bool.and_eq_true_iff.mpr ⟨?_, ?_⟩
        · have hcongr : ∀ j ∈ a₀,
              nodeLinks (hGet (setNext
                (hSet l.heap i { nd with next := none, prev := none }) p none) j) =
                nodeLinks (hGet l.heap j) := by
            intro j hj
            have hji : j ≠ i := fun he => hia₀ (he ▸ hj)
            have hjp : j ≠ p := fun he => hpa₀ (he ▸ hj)
            rw [hg1other j hji hjp]
          rw [chainSeg_congr hcongr]
          simpa using hsega₀
        · refine chainSeg_cons.mpr ⟨_, hg1p, ?_, by simp, by simp⟩
          simpa using hppv
      · rw [List.append_nil]
        rw [show l.head = (a ++ [i]).head? from hr.headEq,
          head?_append_left _ hane]
      · rw [List.append_nil, hae]
      · have := hr.countEq
        rw [ha] at this ⊢
        simp only [List.append_nil, List.length_append, List.length_cons,
          List.length_nil] at this ⊢
        omega
      · intro j
        by_cases hji : j = i
        · subst hji
          rw [hg1i]
          simp
        · by_cases hjp : j = p
          · subst hjp
            rw [hg1p]
            simp [hpa]
          · rw [hg1other j hji hjp]
            have := hr.domain j
            simp only [List.mem_append, List.mem_cons, List.not_mem_nil,
              List.append_nil, or_false] at this ⊢
            constructor
            · rintro (he | hf)
              · exact absurd he hji
              · exact this.mp (Or.inl hf)
            · intro hs
              rcases this.mpr hs with hf | he
              · exact Or.inr hf
              · exact absurd he hji
    | cons n b' =>
      have hnx : nd.next = some n := hinext
      simp only [LList.remove_node, hgi, hup, hnx]
      rcases chainSeg_cons.mp hsegb with ⟨nnd, hgn, hnp, hnn, hsegb'⟩
      have hni : n ≠ i := by
        intro he
        exact hib (he ▸ List.mem_cons_self n b')
      have hab : (a ++ n :: b').Nodup := (List.nodup_cons.mp hnodup).2
      rcases List.nodup_append.mp hab with ⟨hand, hbnd, hdisj⟩
      have hpn : p ≠ n := by
        intro he
        exact hdisj hpa (he ▸ List.mem_cons_self n b')
      have hnb' : n ∉ b' := (List.nodup_cons.mp hbnd).1
      have hib' : i ∉ b' := fun hm => hib (List.mem_cons_of_mem n hm)
      have hpb' : p ∉ b' := fun hm => hdisj hpa (List.mem_cons_of_mem n hm)
      have hna₀ : n ∉ a₀ := by
        intro hm
        exact hdisj (ha ▸ List.mem_append.mpr (Or.inl hm)) (List.mem_cons_self n b')
      have hg0n : hGet (hSet l.heap i { nd with next := none, prev := none }) n =
          some nnd := by
        rw [hg0ne n hni, hgn]
      have hg1n : hGet (setPrev (hSet l.heap i { nd with next := none, prev := none })
          n (some p)) n = some { nnd with prev := some p } :=
        hGet_setPrev_self hg0n _
      have hg1p : hGet (setPrev (hSet l.heap i { nd with next := none, prev := none })
          n (some p)) p = some pnd := by
        rw [hGet_setPrev_ne hpn, hg0ne p hpi, hgp]
      have hg2p : hGet (setNext (setPrev
          (hSet l.heap i { nd with next := none, prev := none }) n (some p))
          p (some n)) p = some { pnd with next := some n } :=
        hGet_setNext_self hg1p _
      have hg2n : hGet (setNext (setPrev
          (hSet l.heap i { nd with next := none, prev := none }) n (some p))
          p (some n)) n = some { nnd with prev := some p } := by
        rw [hGet_setNext_ne (Ne.symm hpn), hg1n]
      have hg2i : hGet (setNext (setPrev
          (hSet l.heap i { nd with next := none, prev := none }) n (some p))
          p (some n)) i = some { nd with next := none, prev := none } := by
        rw [hGet_setNext_ne (Ne.symm hpi), hGet_setPrev_ne (Ne.symm hni), hg0i]
      have hg2other : ∀ j, j ≠ i → j ≠ n → j ≠ p →
          hGet (setNext (setPrev
            (hSet l.heap i { nd with next := none, prev := none }) n (some p))
            p (some n)) j = hGet l.heap j := by
        intro j hji hjn hjp
        rw [hGet_setNext_ne hjp, hGet_setPrev_ne hjn, hg0ne j hji]
      refine ⟨?_, ?_, ?_, ?_, hnodup, ?_, ⟨_, hg2i, rfl, rfl⟩⟩
      · rw [ha, chainSeg_append]
        refine Bool.and_eq_true_iff.mpr ⟨?_, ?_⟩
        · rw [chainSeg_append]
          refine Bool.and_eq_true_iff.mpr ⟨?_, ?_⟩
          · have hcongr : ∀ j ∈ a₀,
                nodeLinks (hGet (setNext (setPrev
                  (hSet l.heap i { nd with next := none, prev := none }) n (some p))
                  p (some n)) j) = nodeLinks (hGet l.heap j) := by
              intro j hj
              have hji : j ≠ i := fun he => hia₀ (he ▸ hj)
              have hjn : j ≠ n := fun he => hna₀ (he ▸ hj)
              have hjp : j ≠ p := fun he => hpa₀ (he ▸ hj)
              rw [hg2other j hji hjn hjp]
            rw [chainSeg_congr hcongr]
            simpa using hsega₀
          · refine chainSeg_cons.mpr ⟨_, hg2p, ?_, by simp, by simp⟩
            simpa using hppv
        · refine chainSeg_cons.mpr ⟨_, hg2n, by simp, ?_, ?_⟩
          · simpa using hnn
          · have hcongr : ∀ j ∈ b',
                nodeLinks (hGet (setNext (setPrev
                  (hSet l.heap i { nd with next := none, prev := none }) n (some p))
                  p (some n)) j) = nodeLinks (hGet l.heap j) := by
              intro j hj
              have hji : j ≠ i := fun he => hib' (he ▸ hj)
              have hjn : j ≠ n := fun he => hnb' (he ▸ hj)
              have hjp : j ≠ p := fun he => hpb' (he ▸ hj)
              rw [hg2other j hji hjn hjp]
            rw [chainSeg_congr hcongr]
            simpa using hsegb'
      · rw [show l.head = (a ++ i :: n :: b').head? from hr.headEq,
          head?_append_left _ hane, head?_append_left _ hane]
      · rw [show l.tail = (a ++ i :: n :: b').getLast? from hr.tailEq,
          getLast?_append_cons, getLast?_append_cons, List.getLast?_cons_cons]
      · have := hr.countEq
        rw [ha] at this ⊢
        simp only [List.length_append, List.length_cons] at this ⊢
        omega
      · intro j
        by_cases hji : j = i
        · subst hji
          rw [hg2i]
          simp
        · by_cases hjn : j = n
          · subst hjn
            rw [hg2n]
            simp
          · by_cases hjp : j = p
            · subst hjp
              rw [hg2p]
              simp [hpa]
            · rw [hg2other j hji hjn hjp]
              have := hr.domain j
              simp only [List.mem_append, List.mem_cons] at this ⊢
              constructor
              · rintro (he | hf | he | hf)
                · exact absurd he hji
                · exact this.mp (Or.inl hf)
                · exact absurd he hjn
                · exact this.mp (Or.inr (Or.inr (Or.inr hf)))
              · intro hs
                rcases this.mpr hs with hf | he | he | hf
                · exact Or.inr (Or.inl hf)
                · exact absurd he hji
                · exact absurd he hjn
                · exact Or.inr (Or.inr (Or.inr hf))

theorem push_node_back_attach {l : LList T} {ch : List Nat} {i : Nat}
    (hd : DetachedRep l ch i) :
    ListRep (l.push_node_back i) (ch ++ [i]) := by
  rcases hd.detached with ⟨nd, hgi, hndp, hndn⟩
  cases hte : l.tail with
  | none =>
    have hch : ch = [] := by
      have := hd.tailEq
      rw [hte, eq_comm, List.getLast?_eq_none_iff] at this
      exact this
    subst hch
    simp only [LList.push_node_back, hte]
    refine ⟨?_, rfl, rfl, ?_, by simp, ?_⟩
    · exact chainSeg_cons.mpr ⟨_, hgi, hndp, by simp [hndn], rfl⟩
    · have := hd.countEq
      simpa using this
    · intro j
      have := hd.domain j
      simp only [List.not_mem_nil, or_false] at this
      simp only [List.nil_append, List.mem_singleton]
      exact this
  | some ct =>
    have hgl : ch.getLast? = some ct := hd.tailEq ▸ hte
    rcases exists_concat_of_getLast? hgl with ⟨ch₀, hch⟩
    have hctch : ct ∈ ch := by rw [hch]; simp
    have hcti : ct ≠ i := by
      have := hd.nodup
      rw [List.nodup_cons] at this
      intro he
      exact this.1 (he ▸ hctch)
    have hctni : ct ∉ ch₀ := by
      have := hd.nodup
      rw [List.nodup_cons, hch, List.nodup_append] at this
      intro hm
      exact this.2.2.2 hm (by simp)
    have hini : i ∉ ch₀ := by
      have := hd.nodup
      rw [List.nodup_cons] at this
      intro hm
      exact this.1 (hch ▸ List.mem_append.mpr (Or.inl hm))
    rcases Option.isSome_iff_exists.mp ((hd.domain ct).mp (Or.inr hctch))
      with ⟨cnd, hgct⟩
    have hsplit := hd.links
    rw [hch, chainSeg_append] at hsplit
    rcases Bool.and_eq_true_iff.mp hsplit with ⟨hseg0, hsegct⟩
    rcases chainSeg_cons.mp hsegct with ⟨cnd', hgct', hcp, hcn, -⟩
    have hcnd : cnd = cnd' := by
      rw [hgct] at hgct'
      exact Option.some.inj hgct'
    subst hcnd
    simp only [LList.push_node_back, hte]
    have hg1i : hGet (setPrev l.heap i (some ct)) i =
        some { nd with prev := some ct } := hGet_setPrev_self hgi _
    have hg1ct : hGet (setPrev l.heap i (some ct)) ct = some cnd := by
      rw [hGet_setPrev_ne hcti, hgct]
    have hg2ct : hGet (setNext (setPrev l.heap i (some ct)) ct (some i)) ct =
        some { cnd with next := some i } := hGet_setNext_self hg1ct _
    have hg2i : hGet (setNext (setPrev l.heap i (some ct)) ct (some i)) i =
        some { nd with prev := some ct } := by
      rw [hGet_setNext_ne (Ne.symm hcti), hg1i]
    have hg2other : ∀ j, j ≠ i → j ≠ ct →
        hGet (setNext (setPrev l.heap i (some ct)) ct (some i)) j =
          hGet l.heap j := by
      intro j hji hjct
      rw [hGet_setNext_ne hjct, hGet_setPrev_ne hji]
    refine ⟨?_, ?_, by simp, by simp [hd.countEq], ?_, ?_⟩
    · rw [chainSeg_append]
      refine Bool.and_eq_true_iff.mpr ⟨?_, ?_⟩
      · rw [hch, chainSeg_append]
        refine Bool.and_eq_true_iff.mpr ⟨?_, ?_⟩
        · have hcongr : ∀ j ∈ ch₀,
              nodeLinks (hGet (setNext (setPrev l.heap i (some ct)) ct (some i)) j) =
                nodeLinks (hGet l.heap j) := by
            intro j hj
            have hji : j ≠ i := fun he => hini (he ▸ hj)
            have hjct : j ≠ ct := fun he => hctni (he ▸ hj)
            rw [hg2other j hji hjct]
          rw [chainSeg_congr hcongr]
          simpa using hseg0
        · refine chainSeg_cons.mpr ⟨_, hg2ct, ?_, by simp, by simp⟩
          simpa using hcp
      · refine chainSeg_cons.mpr ⟨_, hg2i, ?_, by simp [hndn], by simp⟩
        simp only
        rw [hch, olast_concat]
    · rw [head?_append_left _ (by rw [hch]; simp)]
      exact hd.headEq
    · rw [show ch ++ [i] = ch ++ i :: [] from rfl]
      refine List.nodup_middle.mpr ?_
      simpa using hd.nodup
    · intro j
      by_cases hji : j = i
      · subst hji
        rw [hg2i]
        simp
      · by_cases hjct : j = ct
        · subst hjct
          rw [hg2ct]
          simp [hctch]
        · rw [hg2other j hji hjct]
          have := hd.domain j
          simp only [List.mem_append, List.mem_singleton]
          constructor
          · rintro (hf | he)
            · exact this.mp (Or.inr hf)
            · exact absurd he hji
          · intro hs
            rcases this.mpr hs with he | hf
            · exact absurd he hji
            · exact Or.inl hf

theorem move_node_to_back_rep {l : LList T} {i : Nat} {a b : List Nat}
    (hr : ListRep l (a ++ i :: b)) :
    ListRep (l.move_node_to_back i) (a ++ b ++ [i]) := by
  unfold LList.move_node_to_back
  exact push_node_back_attach (remove_node_detach hr)

/-! ## Helper facts about `setValue`, `push_back` and the index map -/

theorem setValue_count (l : LList T) (i : Nat) (v : T) :
    (l.setValue i v).count = l.count := by
  unfold LList.setValue
  split <;> rfl

theorem setValue_length (l : LList T) (i : Nat) (v : T) :
    (l.setValue i v).heap.length = l.heap.length := by
  unfold LList.setValue
  split
  · rfl
  · simp

theorem setValue_value {l : LList T} {i : Nat} {nd : Node T}
    (hg : hGet l.heap i = some nd) (v : T) :
    hGet (l.setValue i v).heap i = some { nd with value := v } := by
  unfold LList.setValue
  rw [hg]
  exact hGet_hSet_self (lt_length_of_hGet_isSome (by simp [hg])) _

theorem setValue_rep {l : LList T} {ch : List Nat} (hr : ListRep l ch)
    (i : Nat) (v : T) : ListRep (l.setValue i v) ch := by
  unfold LList.setValue
  cases hg : hGet l.heap i with
  | none => exact hr
  | some nd =>
    have hlen : i < l.heap.length := lt_length_of_hGet_isSome (by simp [hg])
    have hpt : ∀ j, hGet (hSet l.heap i { nd with value := v }) j =
        if j = i then some { nd with value := v } else hGet l.heap j := by
      intro j
      by_cases hji : j = i
      · subst hji; simp [hGet_hSet_self hlen]
      · simp [hji, hGet_hSet_ne hji]
    refine ⟨?_, hr.headEq, hr.tailEq, hr.countEq, hr.nodup, ?_⟩
    · have hcongr : ∀ j ∈ ch,
          nodeLinks (hGet (hSet l.heap i { nd with value := v }) j) =
            nodeLinks (hGet l.heap j) := by
        intro j hj
        rw [hpt j]
        by_cases hji : j = i
        · subst hji; simp [hg, nodeLinks]
        · simp [hji]
      rw [chainSeg_congr hcongr]
      exact hr.links
    · intro j
      rw [hpt j]
      by_cases hji : j = i
      · rw [if_pos hji, hji]
        have := hr.domain i
        rw [hg] at this
        simp only [Option.isSome_some] at this ⊢
        exact this
      · rw [if_neg hji]
        exact hr.domain j

theorem push_back_tail (l : LList T) (v : T) :
    (l.push_back v).tail = some l.heap.length := by
  unfold LList.push_back
  split <;> rfl

theorem push_back_len (l : LList T) (v : T) :
    (l.push_back v).len = l.count + 1 := by
  unfold LList.push_back LList.len
  split <;> rfl

theorem push_back_count (l : LList T) (v : T) :
    (l.push_back v).count = l.count + 1 := by
  unfold LList.push_back
  split <;> rfl

theorem push_back_new_node {l : LList T} {ch : List Nat} (hr : ListRep l ch)
    (v : T) :
    ∃ nd : Node T, hGet (l.push_back v).heap l.heap.length = some nd ∧
      nd.value = v := by
  unfold LList.push_back
  cases ht : l.tail with
  | none => exact ⟨⟨v, none, none⟩, hGet_append_self _ _, rfl⟩
  | some ct =>
    have hgl : ch.getLast? = some ct := hr.tailEq ▸ ht
    rcases List.getLast?_eq_some_iff.mp hgl with ⟨ch₀, hch⟩
    have hctlt : ct < l.heap.length := hr.mem_lt (by rw [hch]; simp)
    refine ⟨⟨v, none, some ct⟩, ?_, rfl⟩
    rw [hGet_setNext_ne (by omega), hGet_append_self]

theorem move_node_to_back_tail (l : LList T) (i : Nat) :
    (l.move_node_to_back i).tail = some i := by
  unfold LList.move_node_to_back LList.push_node_back
  split <;> rfl

theorem mapLookup_filter_ne [DecidableEq K] (m : List (K × Nat)) (k k' : K)
    (hk : k' ≠ k) :
    mapLookup (m.filter (fun p => decide (p.1 ≠ k))) k' = mapLookup m k' := by
  induction m with
  | nil => rfl
  | cons p rest ih =>
    rw [List.filter_cons]
    by_cases hp : p.1 = k
    · have hfp : (decide (p.1 ≠ k)) = false := by simp [hp]
      have hpk' : p.1 ≠ k' := by
        rw [hp]
        exact fun he => hk he.symm
      rw [hfp, if_neg (by simp), ih,
        show mapLookup (p :: rest) k' =
          if p.1 = k' then some p.2 else mapLookup rest k' from rfl,
        if_neg hpk']
    · have hfp : (decide (p.1 ≠ k)) = true := by simp [hp]
      rw [hfp, if_pos rfl,
        show mapLookup (p :: List.filter (fun q => decide (q.1 ≠ k)) rest) k' =
          if p.1 = k' then some p.2
          else mapLookup (List.filter (fun q => decide (q.1 ≠ k)) rest) k' from rfl,
        show mapLookup (p :: rest) k' =
          if p.1 = k' then some p.2 else mapLookup rest k' from rfl, ih]

theorem mapLookup_mapInsert [DecidableEq K] (m : List (K × Nat)) (k : K)
    (i : Nat) (k' : K) :
    mapLookup (mapInsert m k i) k' = if k' = k then some i else mapLookup m k' := by
  by_cases hk : k' = k
  · subst hk
    simp [mapInsert, mapLookup]
  · rw [if_neg hk]
    unfold mapInsert
    rw [show mapLookup ((k, i) :: m.filter (fun p => decide (p.1 ≠ k))) k' =
        if (k, i).1 = k' then some (k, i).2
        else mapLookup (m.filter (fun p => decide (p.1 ≠ k))) k' from rfl,
      if_neg (fun he => hk (he.symm : k' = k))]
    exact mapLookup_filter_ne m k k' hk

/-! ## Cache-level well-formedness and its preservation by get/put -/

/-- A cache state is well-formed when its list is represented by some
chain of live slots. -/
def CacheWF (c : LRU K T) : Prop :=
  ∃ ch : List Nat, ListRep c.list ch

theorem with_capacity_wf (n : Nat) : CacheWF (LRU.with_capacity n : LRU K T) :=
  ⟨[], new_rep⟩

theorem nodeValue_eq_some {x : Option (Node T)} {v : T}
    (h : nodeValue x = some v) : ∃ nd, x = some nd ∧ nd.value = v := by
  cases x with
  | none => simp [nodeValue] at h
  | some nd =>
    refine ⟨nd, rfl, ?_⟩
    simpa [nodeValue] using h

theorem resolve_eq_some [DecidableEq K] {c : LRU K T} {k : K} {nid : Nat}
    (h : c.resolve k = some nid) :
    mapLookup c.map k = some nid ∧ ∃ nd, hGet c.list.heap nid = some nd := by
  cases hlk : mapLookup c.map k with
  | none => simp [LRU.resolve, hlk] at h
  | some wid =>
    cases hg : hGet c.list.heap wid with
    | none => simp [LRU.resolve, hlk, hg] at h
    | some nd =>
      simp only [LRU.resolve, hlk, hg] at h
      obtain rfl : wid = nid := Option.some.inj h
      exact ⟨rfl, nd, hg⟩

theorem get_wf [DecidableEq K] {c : LRU K T} (h : CacheWF c) (k : K) :
    CacheWF ((c.get k).2) := by
  rcases h with ⟨ch, hr⟩
  cases hlk : mapLookup c.map k with
  | none =>
    simp only [LRU.get, hlk]
    exact ⟨ch, hr⟩
  | some wid =>
    cases hg : hGet c.list.heap wid with
    | none =>
      simp only [LRU.get, hlk, hg]
      exact ⟨ch, hr⟩
    | some nd =>
      simp only [LRU.get, hlk, hg]
      have hmem : wid ∈ ch := (hr.domain wid).mpr (by simp [hg])
      rcases List.append_of_mem hmem with ⟨a, b, rfl⟩
      exact ⟨a ++ b ++ [wid], move_node_to_back_rep hr⟩

theorem put_wf [DecidableEq K] {c : LRU K T} (h : CacheWF c) (k : K) (v : T) :
    CacheWF (c.put k v) := by
  rcases h with ⟨ch, hr⟩
  cases hres : c.resolve k with
  | some nid =>
    simp only [LRU.put, hres]
    rcases resolve_eq_some hres with ⟨hlk, nd, hg⟩
    have hmem : nid ∈ ch := (hr.domain nid).mpr (by simp [hg])
    rcases List.append_of_mem hmem with ⟨a, b, rfl⟩
    exact ⟨a ++ b ++ [nid], move_node_to_back_rep (setValue_rep hr nid v)⟩
  | none =>
    simp only [LRU.put, hres, LList.get_weak_tail, push_back_tail]
    have hr1 : ListRep (c.list.push_back v) (ch ++ [c.list.heap.length]) :=
      push_back_rep hr v
    by_cases hcap : c.capacity < (c.list.push_back v).len
    · rw [if_pos hcap]
      cases ch with
      | nil => exact ⟨[], (pop_front_rep hr1).2.1⟩
      | cons c0 ch₁ =>
        rw [List.cons_append] at hr1
        exact ⟨ch₁ ++ [c.list.heap.length], (pop_front_rep hr1).2.1⟩
    · rw [if_neg hcap]
      exact ⟨ch ++ [c.list.heap.length], hr1⟩

theorem applyOp_wf [DecidableEq K] {c : LRU K T} (h : CacheWF c)
    (op : Op K T) : CacheWF (c.applyOp op) := by
  cases op with
  | get k => exact get_wf h k
  | put k v => exact put_wf h k v

theorem runOps_wf [DecidableEq K] {c : LRU K T} (h : CacheWF c)
    (ops : List (Op K T)) : CacheWF (c.runOps ops) := by
  induction ops generalizing c with
  | nil => exact h
  | cons op ops ih => exact ih (applyOp_wf h op)

theorem get_capacity [DecidableEq K] (c : LRU K T) (k : K) :
    ((c.get k).2).capacity = c.capacity := by
  cases hlk : mapLookup c.map k with
  | none => simp [LRU.get, hlk]
  | some wid =>
    cases hg : hGet c.list.heap wid with
    | none => simp [LRU.get, hlk, hg]
    | some nd => simp [LRU.get, hlk, hg]

theorem put_capacity [DecidableEq K] (c : LRU K T) (k : K) (v : T) :
    (c.put k v).capacity = c.capacity := by
  cases hres : c.resolve k with
  | none => simp [LRU.put, hres]
  | some nid => simp [LRU.put, hres]

theorem runOps_capacity [DecidableEq K] (c : LRU K T) (ops : List (Op K T)) :
    (c.runOps ops).capacity = c.capacity := by
  induction ops generalizing c with
  | nil => rfl
  | cons op ops ih =>
    show (LRU.runOps _ ops).capacity = _
    rw [ih]
    cases op with
    | get k => exact get_capacity c k
    | put k v => exact put_capacity c k v

/-- After `put k v` on a well-formed cache with capacity at least 1, a
`get k` hits the freshly written node and returns `v`: the node written
by a put is never the one evicted by that same put. -/
theorem put_get_self [DecidableEq K] {c : LRU K T} (hwf : CacheWF c)
    (hcap : 1 ≤ c.capacity) (k : K) (v : T) :
    ((c.put k v).get k).1 = some v := by
  rcases hwf with ⟨ch, hr⟩
  cases hres : c.resolve k with
  | some nid =>
    rcases resolve_eq_some hres with ⟨hlk, nd, hg⟩
    simp only [LRU.put, hres]
    have hvv : nodeValue
        (hGet ((c.list.setValue nid v).move_node_to_back nid).heap nid) =
          some v := by
      rw [(move_node_to_back_sameValues _ nid) nid, setValue_value hg v]
      simp [nodeValue]
    rcases nodeValue_eq_some hvv with ⟨nd', hget', hval⟩
    simp only [LRU.get, hlk, hget']
    simp [hval]
  | none =>
    simp only [LRU.put, hres, LList.get_weak_tail, push_back_tail]
    have hr1 := push_back_rep hr v
    rcases push_back_new_node hr v with ⟨nd, hgN, hvN⟩
    by_cases hover : c.capacity < (c.list.push_back v).len
    · rw [if_pos hover]
      cases hch : ch with
      | nil =>
        exfalso
        have hc0 : c.list.count = 0 := by
          rw [hr.countEq, hch]
          rfl
        have hl1 : (c.list.push_back v).len = 1 := by
          rw [push_back_len, hc0]
        omega
      | cons c0 ch₁ =>
        subst hch
        rw [List.cons_append] at hr1
        have hpop := pop_front_rep hr1
        have hc0N : c0 ≠ c.list.heap.length := by
          have : c0 < c.list.heap.length := hr.mem_lt (by simp)
          omega
        have hval2 : nodeValue
            (hGet ((c.list.push_back v).pop_front).2.heap c.list.heap.length) =
              some v := by
          rw [hpop.2.2.2.1 _ (fun he => hc0N he.symm), hgN]
          simp [nodeValue, hvN]
        rcases nodeValue_eq_some hval2 with ⟨nd', hget', hval⟩
        have hlkN : mapLookup (mapInsert c.map k c.list.heap.length) k =
            some c.list.heap.length := by
          rw [mapLookup_mapInsert, if_pos rfl]
        simp only [LRU.get, hlkN, hget']
        simp [hval]
    · rw [if_neg hover]
      have hlkN : mapLookup (mapInsert c.map k c.list.heap.length) k =
          some c.list.heap.length := by
        rw [mapLookup_mapInsert, if_pos rfl]
      simp only [LRU.get, hlkN, hgN]
      simp [hvN]

/-! ## The panic conditions of the Rust code, and their absence -/

/-- The two state-dependent panic conditions inside `List::pop_front`:
the `usize` underflow in `self.count -= 1` (line 124 of `src/node.rs`),
and the `RefCell` double borrow when `next.borrow_mut()` (line 119) hits
the cell already held by `head.borrow_mut()` (line 112) — which happens
exactly when the head node's `next` points back at the head cell.  (The
`unwrap`s of the source are all guarded by an `is_none`/`is_some` check
on the very option being unwrapped, so they carry no state-dependent
condition.) -/
def popFrontPanics (l : LList T) : Prop :=
  match l.head with
  | none => False
  | some hId =>
    l.count = 0 ∨ ∃ nd, hGet l.heap hId = some nd ∧ nd.next = some hId

/-- The panic condition of `LRU::put`: the only panicking operation it
can reach is the `pop_front` it performs on the pushed list when the
length exceeds the capacity (the hit path only does guarded unwraps and
non-overlapping borrows). -/
def LRU.putPanics [DecidableEq K] (c : LRU K T) (k : K) (v : T) : Prop :=
  match c.resolve k with
  | some _ => False
  | none =>
    c.capacity < (c.list.push_back v).len ∧ popFrontPanics (c.list.push_back v)

theorem wf_not_putPanics [DecidableEq K] {c : LRU K T} (hwf : CacheWF c)
    (k : K) (v : T) : ¬ c.putPanics k v := by
  rcases hwf with ⟨ch, hr⟩
  cases hres : c.resolve k with
  | some nid => simp [LRU.putPanics, hres]
  | none =>
    simp only [LRU.putPanics, hres]
    rintro ⟨hover, hpanic⟩
    have hr1 := push_back_rep hr v
    cases hx : ch ++ [c.list.heap.length] with
    | nil => simp at hx
    | cons x rest =>
      rw [hx] at hr1
      have hh : (c.list.push_back v).head = some x := by
        rw [hr1.headEq]
        rfl
      simp only [popFrontPanics, hh] at hpanic
      rcases hpanic with hc0 | ⟨nd, hgx, hnx⟩
      · rw [hr1.countEq] at hc0
        simp at hc0
      · rcases chainSeg_cons.mp hr1.links with ⟨nd', hgx', hp, hn, -⟩
        obtain rfl : nd = nd' := by
          rw [hgx] at hgx'
          exact Option.some.inj hgx'
        cases hrest : rest with
        | nil =>
          rw [hrest] at hn
          rw [hn] at hnx
          cases hnx
        | cons y rest' =>
          rw [hrest] at hn
          rw [hn] at hnx
          have hyx : y = x := Option.some.inj hnx
          have hnd2 := hr1.nodup
          rw [hrest, List.nodup_cons] at hnd2
          exact hnd2.1 (hyx ▸ List.mem_cons_self y rest')

/-! ## The count/traversal invariant stated by the spec (§3) -/

/-- Forward traversal from a starting pointer, following strong `next`
links, with enough fuel to exhaust any duplicate-free chain. -/
def forwardNodes (h : Heap T) : Nat → Option Nat → List Nat
  | 0, _ => []
  | _ + 1, none => []
  | fuel + 1, some i =>
    match hGet h i with
    | none => []
    | some nd => i :: forwardNodes h fuel nd.next

/-- The invariant of §3 of the spec: `count` equals the number of nodes
reachable by forward traversal from `head`, and `count` is `0` iff both
`head` and `tail` are absent. -/
def countInv (l : LList T) : Prop :=
  l.count = (forwardNodes l.heap l.heap.length l.head).length ∧
  (l.count = 0 ↔ l.head = none ∧ l.tail = none)

instance (l : LList T) : Decidable (countInv l) := by
  unfold countInv
  infer_instance

theorem length_le_of_nodup_lt {ch : List Nat} {N : Nat} (hnd : ch.Nodup)
    (hlt : ∀ j ∈ ch, j < N) : ch.length ≤ N := by
  classical
  have h2 : ch.toFinset ⊆ Finset.range N := by
    intro x hx
    rw [List.mem_toFinset] at hx
    rw [Finset.mem_range]
    exact hlt x hx
  calc ch.length = ch.toFinset.card := (List.toFinset_card_of_nodup hnd).symm
    _ ≤ (Finset.range N).card := Finset.card_le_card h2
    _ = N := Finset.card_range N

theorem forwardNodes_of_chainSeg {h : Heap T} {ch : List Nat} {p : Option Nat}
    (hc : chainSeg h p none ch = true) :
    ∀ fuel, ch.length ≤ fuel → forwardNodes h fuel (ohead none ch) = ch := by
  induction ch generalizing p with
  | nil =>
    intro fuel hf
    cases fuel <;> rfl
  | cons i rest ih =>
    intro fuel hf
    rcases chainSeg_cons.mp hc with ⟨nd, hgi, hp, hn, hrest⟩
    cases fuel with
    | zero => simp at hf
    | succ fuel =>
      show forwardNodes h (fuel + 1) (some i) = i :: rest
      simp only [forwardNodes, hgi, hn]
      rw [ih hrest fuel (by simpa using hf)]

theorem rep_countInv {l : LList T} {ch : List Nat} (hr : ListRep l ch) :
    countInv l := by
  have hbound : ∀ j ∈ ch, j < l.heap.length := fun j hj => hr.mem_lt hj
  have hlen : ch.length ≤ l.heap.length := length_le_of_nodup_lt hr.nodup hbound
  have hfwd : forwardNodes l.heap l.heap.length l.head = ch := by
    rw [hr.headEq, show ch.head? = ohead none ch by cases ch <;> rfl]
    exact forwardNodes_of_chainSeg hr.links _ hlen
  refine ⟨by rw [hr.countEq, hfwd], ?_, ?_⟩
  · intro h0
    have hch : ch = [] := by
      rw [hr.countEq] at h0
      exact List.length_eq_zero.mp h0
    subst hch
    exact ⟨by rw [hr.headEq]; rfl, by rw [hr.tailEq]; rfl⟩
  · rintro ⟨hh, -⟩
    have hch : ch = [] := hr.nil_of_head_none hh
    rw [hr.countEq, hch]
    rfl

/-! ## The capacity-0 cache: every put self-evicts, every get misses -/

/-- Invariant of every reachable state of a `with_capacity 0` cache: the
list is empty and every heap cell has been freed, so no index entry can
resolve. -/
def ZeroInv (c : LRU K T) : Prop :=
  c.capacity = 0 ∧ c.list.head = none ∧ c.list.tail = none ∧
  c.list.count = 0 ∧ ∀ i, hGet c.list.heap i = none

theorem zeroInv_init : ZeroInv (LRU.with_capacity 0 : LRU K T) :=
  ⟨rfl, rfl, rfl, rfl, fun i => by simp [LRU.with_capacity, LList.new]⟩

theorem zeroInv_get [DecidableEq K] {c : LRU K T} (h : ZeroInv c) (k : K) :
    c.get k = (none, c) := by
  cases hlk : mapLookup c.map k with
  | none => simp [LRU.get, hlk]
  | some wid => simp [LRU.get, hlk, h.2.2.2.2 wid]

theorem zeroInv_put [DecidableEq K] {c : LRU K T} (h : ZeroInv c) (k : K)
    (v : T) : ZeroInv (c.put k v) := by
  obtain ⟨hcap, hh, ht, hc, hdead⟩ := h
  have hres : c.resolve k = none := by
    cases hlk : mapLookup c.map k with
    | none => simp [LRU.resolve, hlk]
    | some wid => simp [LRU.resolve, hlk, hdead wid]
  simp only [LRU.put, hres, LList.get_weak_tail, push_back_tail]
  have hpb : c.list.push_back v =
      { heap := c.list.heap ++ [some ⟨v, none, none⟩],
        head := some c.list.heap.length, tail := some c.list.heap.length,
        count := c.list.count + 1 } := by
    unfold LList.push_back
    rw [ht]
  have hover : c.capacity < (c.list.push_back v).len := by
    rw [push_back_len, hc, hcap]
    omega
  rw [if_pos hover]
  have hhd : (c.list.push_back v).head = some c.list.heap.length := by
    rw [hpb]
  have hgN : hGet (c.list.push_back v).heap c.list.heap.length =
      some ⟨v, none, none⟩ := by
    rw [hpb]
    exact hGet_append_self _ _
  simp only [LList.pop_front, hhd, hgN]
  refine ⟨hcap, rfl, rfl, ?_, ?_⟩
  · rw [hpb]
    simp [hc]
  · intro i
    by_cases hiN : i = c.list.heap.length
    · subst hiN
      exact hGet_hFree_self _ _
    · rw [hGet_hFree_ne hiN, hpb]
      rcases Nat.lt_trichotomy i c.list.heap.length with hi | hi | hi
      · rw [hGet_append_lt hi]
        exact hdead i
      · exact absurd hi hiN
      · exact hGet_append_gt hi (by simp)

theorem zeroInv_runOps [DecidableEq K] {c : LRU K T} (h : ZeroInv c)
    (ops : List (Op K T)) : ZeroInv (c.runOps ops) := by
  induction ops generalizing c with
  | nil => exact h
  | cons op ops ih =>
    cases op with
    | get k =>
      show ZeroInv (LRU.runOps (c.get k).2 ops)
      rw [zeroInv_get h k]
      exact ih h
    | put k v => exact ih (zeroInv_put h k v)

/-! ## Exact state of a cache after putting a sequence of distinct keys

After putting `m` pairs with pairwise-distinct keys into a fresh cache of
capacity `n ≥ 1` (each key put once, nothing gotten), slot `i` holds the
`i`-th pair; slots below `m - n` have been evicted and freed, the rest
form the chain in insertion order, and the index maps the `i`-th key to
slot `i` (including the tombstoned evicted keys). -/

def CapInv [DecidableEq K] (n : Nat) (kvs : List (K × T)) (c : LRU K T) : Prop :=
  c.capacity = n ∧
  c.list.heap.length = kvs.length ∧
  c.list.head = (if kvs.length = 0 then none else some (kvs.length - n)) ∧
  c.list.tail = (if kvs.length = 0 then none else some (kvs.length - 1)) ∧
  c.list.count = kvs.length - (kvs.length - n) ∧
  (∀ i, i < kvs.length - n → hGet c.list.heap i = none) ∧
  (∀ i p, kvs[i]? = some p → kvs.length - n ≤ i →
    hGet c.list.heap i = some
      ⟨p.2, if i = kvs.length - 1 then none else some (i + 1),
            if i = kvs.length - n then none else some (i - 1)⟩) ∧
  (∀ i p, kvs[i]? = some p → mapLookup c.map p.1 = some i) ∧
  (∀ k j, mapLookup c.map k = some j → ∃ p, kvs[j]? = some p ∧ p.1 = k)

theorem capInv_init [DecidableEq K] (n : Nat) :
    CapInv n ([] : List (K × T)) (LRU.with_capacity n) := by
  refine ⟨rfl, rfl, rfl, rfl, by simp [LRU.with_capacity, LList.new], ?_, ?_, ?_, ?_⟩
  · intro i hi
    simp at hi
  · intro i p hp
    simp at hp
  · intro i p hp
    simp at hp
  · intro k j hj
    simp [LRU.with_capacity, mapLookup] at hj

theorem capInv_resolve_none [DecidableEq K] {n : Nat} {kvs : List (K × T)}
    {c : LRU K T} (hinv : CapInv n kvs c) {k : K}
    (hk : ∀ p ∈ kvs, p.1 ≠ k) : c.resolve k = none := by
  cases hlk : mapLookup c.map k with
  | none => simp [LRU.resolve, hlk]
  | some j =>
    rcases hinv.2.2.2.2.2.2.2.2 k j hlk with ⟨p, hp, hpk⟩
    exact absurd hpk (hk p (List.getElem?_mem hp))

theorem capInv_step [DecidableEq K] {n : Nat} {kvs : List (K × T)} {c : LRU K T}
    (hn : 1 ≤ n) (hinv : CapInv n kvs c) (k : K) (v : T)
    (hk : ∀ p ∈ kvs, p.1 ≠ k) :
    CapInv n (kvs ++ [(k, v)]) (c.put k v) := by
  have hres : c.resolve k = none := capInv_resolve_none hinv hk
  obtain ⟨hcap, hlen, hhead, htail, hcount, hdead, hlive, hmapOK, hmapDom⟩ := hinv
  simp only [LRU.put, hres, LList.get_weak_tail, push_back_tail]
  have hkv_at : ∀ i, (kvs ++ [(k, v)])[i]? =
      if i < kvs.length then kvs[i]?
      else if i = kvs.length then some (k, v) else none := by
    intro i
    by_cases hi : i < kvs.length
    · rw [List.getElem?_append, if_pos hi, if_pos hi]
    · rw [if_neg hi]
      by_cases hie : i = kvs.length
      · subst hie
        rw [if_pos rfl, List.getElem?_concat_length]
      · rw [if_neg hie, List.getElem?_append_right (by omega),
          List.getElem?_eq_none (by simp; omega)]
  have hlen' : (kvs ++ [(k, v)]).length = kvs.length + 1 := by simp
  have hmapOK' : ∀ i p, (kvs ++ [(k, v)])[i]? = some p →
      mapLookup (mapInsert c.map k c.list.heap.length) p.1 = some i := by
    intro i p hp
    rw [hkv_at] at hp
    by_cases hi : i < kvs.length
    · rw [if_pos hi] at hp
      have hmem : p ∈ kvs := List.getElem?_mem hp
      rw [mapLookup_mapInsert, if_neg (hk p hmem)]
      exact hmapOK i p hp
    · rw [if_neg hi] at hp
      by_cases hie : i = kvs.length
      · rw [if_pos hie] at hp
        obtain rfl : p = (k, v) := (Option.some.inj hp).symm
        rw [mapLookup_mapInsert, if_pos rfl, hlen, hie]
      · rw [if_neg hie] at hp
        cases hp
  have hmapDom' : ∀ k' j, mapLookup (mapInsert c.map k c.list.heap.length) k' =
      some j → ∃ p, (kvs ++ [(k, v)])[j]? = some p ∧ p.1 = k' := by
    intro k' j hj
    rw [mapLookup_mapInsert] at hj
    by_cases hkk : k' = k
    · rw [if_pos hkk] at hj
      obtain rfl : c.list.heap.length = j := Option.some.inj hj
      refine ⟨(k, v), ?_, hkk.symm⟩
      rw [hkv_at, if_neg (by omega), if_pos hlen]
    · rw [if_neg hkk] at hj
      rcases hmapDom k' j hj with ⟨p, hp, hpk⟩
      refine ⟨p, ?_, hpk⟩
      rw [hkv_at, if_pos (List.getElem?_eq_some_iff.mp hp).1]
      exact hp
  by_cases hm0 : kvs.length = 0
  · -- first insertion into the empty cache: no eviction since n ≥ 1
    have ht : c.list.tail = none := by rw [htail, if_pos hm0]
    have hpb : c.list.push_back v =
        { heap := c.list.heap ++ [some ⟨v, none, none⟩],
          head := some c.list.heap.length, tail := some c.list.heap.length,
          count := c.list.count + 1 } := by
      unfold LList.push_back
      rw [ht]
    have hcnt0 : c.list.count = 0 := by
      rw [hcount, hm0]
      omega
    have hnov : ¬ c.capacity < (c.list.push_back v).len := by
      rw [push_back_len, hcnt0, hcap]
      omega
    rw [if_neg hnov]
    have hN0 : c.list.heap.length = 0 := by rw [hlen, hm0]
    have hh1head : (c.list.push_back v).head = some c.list.heap.length := by
      rw [hpb]
    have hh1z : hGet (c.list.push_back v).heap c.list.heap.length =
        some ⟨v, none, none⟩ := by
      rw [hpb]
      exact hGet_append_self _ _
    have hh1z0 : hGet (c.list.push_back v).heap 0 = some ⟨v, none, none⟩ := by
      have := hh1z
      rw [hN0] at this
      exact this
    have hh1len : (c.list.push_back v).heap.length = 1 := by
      rw [hpb]
      simp [hN0]
    refine ⟨hcap, ?_, ?_, ?_, ?_, ?_, ?_, hmapOK', hmapDom'⟩
    · show (c.list.push_back v).heap.length = (kvs ++ [(k, v)]).length
      rw [hh1len, hlen', hm0]
    · show (c.list.push_back v).head = _
      rw [hh1head, hN0, hlen', hm0, if_neg (by omega)]
      exact congrArg some (by omega)
    · show (c.list.push_back v).tail = _
      rw [push_back_tail, hN0, hlen', hm0, if_neg (by omega)]
    · show (c.list.push_back v).count = _
      rw [push_back_count, hcnt0, hlen', hm0]
      omega
    · intro i hi
      rw [hlen', hm0] at hi
      omega
    · intro i p hp hge
      show hGet (c.list.push_back v).heap i = _
      rw [hkv_at, hm0] at hp
      rw [hlen', hm0]
      by_cases hi0 : i = 0
      · subst hi0
        rw [if_neg (by omega), if_pos rfl] at hp
        obtain rfl : p = (k, v) := (Option.some.inj hp).symm
        rw [hh1z0, if_pos (by omega), if_pos (by omega)]
      · rw [if_neg (by omega), if_neg (by omega)] at hp
        cases hp
  · -- nonempty list: splice behind the tail, evict iff n ≤ length
    have hm1 : 1 ≤ kvs.length := Nat.one_le_iff_ne_zero.mpr hm0
    have ht : c.list.tail = some (kvs.length - 1) := by rw [htail, if_neg hm0]
    obtain ⟨pm, hpm⟩ : ∃ p, kvs[kvs.length - 1]? = some p := by
      rw [List.getElem?_eq_getElem (by omega)]
      exact ⟨_, rfl⟩
    have hgm1 : hGet c.list.heap (kvs.length - 1) =
        some ⟨pm.2, none,
          if kvs.length - 1 = kvs.length - n then none
          else some (kvs.length - 1 - 1)⟩ := by
      have := hlive (kvs.length - 1) pm hpm (by omega)
      rw [if_pos rfl] at this
      exact this
    have hpb : c.list.push_back v =
        { heap := setNext (c.list.heap ++ [some ⟨v, none, some (kvs.length - 1)⟩])
            (kvs.length - 1) (some c.list.heap.length),
          head := c.list.head, tail := some c.list.heap.length,
          count := c.list.count + 1 } := by
      unfold LList.push_back
      rw [ht]
    have hh1N : hGet (c.list.push_back v).heap c.list.heap.length =
        some ⟨v, none, some (kvs.length - 1)⟩ := by
      rw [hpb]
      show hGet (setNext _ _ _) _ = _
      rw [hGet_setNext_ne (by omega), hGet_append_self]
    have hh1Nm : hGet (c.list.push_back v).heap kvs.length =
        some ⟨v, none, some (kvs.length - 1)⟩ := by
      have := hh1N
      rw [hlen] at this
      exact this
    have hh1m1 : hGet (c.list.push_back v).heap (kvs.length - 1) =
        some ⟨pm.2, some c.list.heap.length,
          if kvs.length - 1 = kvs.length - n then none
          else some (kvs.length - 1 - 1)⟩ := by
      rw [hpb]
      show hGet (setNext _ _ _) _ = _
      have hbase : hGet (c.list.heap ++ [some ⟨v, none, some (kvs.length - 1)⟩])
          (kvs.length - 1) = some ⟨pm.2, none,
            if kvs.length - 1 = kvs.length - n then none
            else some (kvs.length - 1 - 1)⟩ := by
        rw [hGet_append_lt (by omega), hgm1]
      exact hGet_setNext_self hbase _
    have hh1lt : ∀ i, i < kvs.length → i ≠ kvs.length - 1 →
        hGet (c.list.push_back v).heap i = hGet c.list.heap i := by
      intro i hi hine
      rw [hpb]
      show hGet (setNext _ _ _) _ = _
      rw [hGet_setNext_ne hine, hGet_append_lt (by omega)]
    have hlen1 : (c.list.push_back v).heap.length = kvs.length + 1 := by
      rw [hpb]
      show (setNext _ _ _).length = _
      simp [hlen]
    by_cases hover : c.capacity < (c.list.push_back v).len
    · -- over capacity: evict the front node, slot `kvs.length - n`
      have hnm : n ≤ kvs.length := by
        rw [push_back_len, hcount, hcap] at hover
        omega
      rw [if_pos hover]
      have hh : (c.list.push_back v).head = some (kvs.length - n) := by
        rw [hpb]
        show c.list.head = _
        rw [hhead, if_neg hm0]
      obtain ⟨ndlo, hglo, hnlo⟩ : ∃ nd,
          hGet (c.list.push_back v).heap (kvs.length - n) = some nd ∧
            nd.next = some (kvs.length - n + 1) := by
        by_cases hn1 : kvs.length - n = kvs.length - 1
        · refine ⟨_, by rw [hn1]; exact hh1m1, ?_⟩
          show some c.list.heap.length = some (kvs.length - n + 1)
          rw [hlen]
          exact congrArg some (by omega)
        · obtain ⟨plo, hplo⟩ : ∃ p, kvs[kvs.length - n]? = some p := by
            rw [List.getElem?_eq_getElem (by omega)]
            exact ⟨_, rfl⟩
          have hlo := hlive (kvs.length - n) plo hplo (by omega)
          rw [if_neg hn1, if_pos rfl] at hlo
          exact ⟨_, by rw [hh1lt _ (by omega) hn1]; exact hlo, rfl⟩
      simp only [LList.pop_front, hh, hglo, hnlo]
      refine ⟨hcap, ?_, ?_, ?_, ?_, ?_, ?_, hmapOK', hmapDom'⟩
      · show (hFree (setPrev (c.list.push_back v).heap (kvs.length - n + 1) none)
            (kvs.length - n)).length = (kvs ++ [(k, v)]).length
        rw [hlen']
        simp [hlen1]
      · show some (kvs.length - n + 1) = _
        rw [hlen', if_neg (by omega)]
        exact congrArg some (by omega)
      · show (c.list.push_back v).tail = _
        rw [push_back_tail, hlen, hlen', if_neg (by omega)]
        exact congrArg some (by omega)
      · show (c.list.push_back v).count - 1 = _
        rw [push_back_count, hcount, hlen']
        omega
      · intro i hi
        show hGet (hFree (setPrev (c.list.push_back v).heap (kvs.length - n + 1)
          none) (kvs.length - n)) i = none
        rw [hlen'] at hi
        by_cases hilo : i = kvs.length - n
        · subst hilo
          exact hGet_hFree_self _ _
        · rw [hGet_hFree_ne hilo, hGet_setPrev_ne (by omega),
            hh1lt i (by omega) (by omega)]
          exact hdead i (by omega)
      · intro i p hp hge
        show hGet (hFree (setPrev (c.list.push_back v).heap (kvs.length - n + 1)
          none) (kvs.length - n)) i = _
        rw [hlen'] at hge ⊢
        rw [show kvs.length + 1 - 1 = kvs.length from by omega]
        rw [hkv_at] at hp
        have hine_lo : i ≠ kvs.length - n := by omega
        rw [hGet_hFree_ne hine_lo]
        by_cases hiN : i = kvs.length
        · -- the freshly pushed node
          rw [if_neg (by omega), if_pos hiN] at hp
          obtain rfl : p = (k, v) := (Option.some.inj hp).symm
          subst hiN
          rw [if_pos rfl]
          by_cases hn1 : n = 1
          · -- the new node is also the new head: pop cleared its prev
            rw [if_pos (by omega)]
            have hbase : hGet (c.list.push_back v).heap (kvs.length - n + 1) =
                some ⟨v, none, some (kvs.length - 1)⟩ := by
              rw [show kvs.length - n + 1 = kvs.length from by omega]
              exact hh1Nm
            have hstep := hGet_setPrev_self hbase (none : Option Nat)
            rw [show kvs.length - n + 1 = kvs.length from by omega] at hstep ⊢
            exact hstep
          · rw [if_neg (by omega), hGet_setPrev_ne (by omega), hh1Nm]
        · -- an old node that stays inside the window
          by_cases hilt : i < kvs.length
          swap
          · rw [if_neg hilt, if_neg (by omega)] at hp
            cases hp
          rw [if_pos hilt] at hp
          rw [if_neg (by omega)]
          by_cases hilo1 : i = kvs.length - n + 1
          · -- the new head: its prev was cleared by pop_front
            rw [if_pos (by omega)]
            by_cases him1 : i = kvs.length - 1
            · have hppm : pm = p := by
                rw [him1] at hp
                exact Option.some.inj (hpm.symm.trans hp)
              subst hppm
              have hbase : hGet (c.list.push_back v).heap (kvs.length - n + 1) =
                  some ⟨pm.2, some c.list.heap.length,
                    if kvs.length - 1 = kvs.length - n then none
                    else some (kvs.length - 1 - 1)⟩ := by
                rw [show kvs.length - n + 1 = kvs.length - 1 from by omega]
                exact hh1m1
              have hstep := hGet_setPrev_self hbase (none : Option Nat)
              rw [hilo1, hstep]
              simp only [Option.some.injEq, Node.mk.injEq, eq_self_iff_true,
                and_true, true_and]
              omega
            · have hbase : hGet (c.list.push_back v).heap (kvs.length - n + 1) =
                  some ⟨p.2, some (i + 1), some (i - 1)⟩ := by
                rw [show kvs.length - n + 1 = i from hilo1.symm,
                  hh1lt i hilt him1]
                have := hlive i p hp (by omega)
                rw [if_neg him1, if_neg (by omega)] at this
                exact this
              have hstep := hGet_setPrev_self hbase (none : Option Nat)
              rw [hilo1, hstep]
              simp only [Option.some.injEq, Node.mk.injEq, eq_self_iff_true,
                and_true, true_and]
              omega
          · -- untouched interior or tail slots
            rw [hGet_setPrev_ne hilo1, if_neg (by omega)]
            by_cases him1 : i = kvs.length - 1
            · have hppm : pm = p := by
                rw [him1] at hp
                exact Option.some.inj (hpm.symm.trans hp)
              subst hppm
              rw [him1, hh1m1, if_neg (by omega)]
              simp only [Option.some.injEq, Node.mk.injEq, eq_self_iff_true,
                and_true, true_and]
              omega
            · rw [hh1lt i hilt him1]
              have := hlive i p hp (by omega)
              rw [if_neg him1, if_neg (by omega)] at this
              rw [this]
    · -- still under capacity: no eviction
      have hnm : kvs.length < n := by
        rw [push_back_len, hcount, hcap] at hover
        omega
      rw [if_neg hover]
      refine ⟨hcap, ?_, ?_, ?_, ?_, ?_, ?_, hmapOK', hmapDom'⟩
      · show (c.list.push_back v).heap.length = (kvs ++ [(k, v)]).length
        rw [hlen', hlen1]
      · show (c.list.push_back v).head = _
        rw [hpb]
        show c.list.head = _
        rw [hhead, if_neg hm0, hlen', if_neg (by omega)]
        exact congrArg some (by omega)
      · show (c.list.push_back v).tail = _
        rw [push_back_tail, hlen, hlen', if_neg (by omega)]
        exact congrArg some (by omega)
      · show (c.list.push_back v).count = _
        rw [push_back_count, hcount, hlen']
        omega
      · intro i hi
        rw [hlen'] at hi
        omega
      · intro i p hp hge
        show hGet (c.list.push_back v).heap i = _
        rw [hlen'] at hge ⊢
        rw [show kvs.length + 1 - 1 = kvs.length from by omega]
        rw [hkv_at] at hp
        by_cases hiN : i = kvs.length
        · rw [if_neg (by omega), if_pos hiN] at hp
          obtain rfl : p = (k, v) := (Option.some.inj hp).symm
          subst hiN
          rw [if_pos rfl, if_neg (by omega), hh1Nm]
        · by_cases hilt : i < kvs.length
          swap
          · rw [if_neg hilt, if_neg (by omega)] at hp
            cases hp
          rw [if_pos hilt] at hp
          rw [if_neg (by omega)]
          by_cases him1 : i = kvs.length - 1
          · have hppm : pm = p := by
              rw [him1] at hp
              exact Option.some.inj (hpm.symm.trans hp)
            subst hppm
            rw [him1, hh1m1]
            by_cases hz : kvs.length - 1 = 0
            · rw [if_pos (by omega), if_pos (by omega)]
              simp only [Option.some.injEq, Node.mk.injEq, eq_self_iff_true,
                and_true, true_and]
              omega
            · rw [if_neg (by omega), if_neg (by omega)]
              simp only [Option.some.injEq, Node.mk.injEq, eq_self_iff_true,
                and_true, true_and]
              omega
          · rw [hh1lt i hilt him1]
            have := hlive i p hp (by omega)
            rw [if_neg him1] at this
            rw [this]
            by_cases hz : i = kvs.length - n
            · rw [if_pos (by omega), if_pos (by omega)]
            · rw [if_neg (by omega), if_neg (by omega)]

theorem capInv_putList [DecidableEq K] {n : Nat} (hn : 1 ≤ n) :
    ∀ (kvs₂ kvs₁ : List (K × T)) (c : LRU K T), CapInv n kvs₁ c →
      (((kvs₁ ++ kvs₂).map Prod.fst).Nodup) →
      CapInv n (kvs₁ ++ kvs₂) (c.putList kvs₂) := by
  intro kvs₂
  induction kvs₂ with
  | nil =>
    intro kvs₁ c hinv hnd
    simpa using hinv
  | cons p rest ih =>
    intro kvs₁ c hinv hnd
    have hknotin : ∀ q ∈ kvs₁, q.1 ≠ p.1 := by
      intro q hq he
      have hnd2 := hnd
      rw [List.map_append, List.nodup_append] at hnd2
      exact hnd2.2.2 (List.mem_map_of_mem Prod.fst hq)
        (by rw [List.map_cons, ← he]; exact List.mem_cons_self _ _)
    have hstep := capInv_step hn hinv p.1 p.2 hknotin
    have hassoc : kvs₁ ++ p :: rest = (kvs₁ ++ [p]) ++ rest := by simp
    rw [hassoc]
    rw [hassoc] at hnd
    show CapInv n ((kvs₁ ++ [p]) ++ rest) (LRU.putList (c.put p.1 p.2) rest)
    exact ih (kvs₁ ++ [p]) (c.put p.1 p.2) hstep hnd

/-- State of a fresh capacity-`n` cache after putting a whole list of
distinct-key pairs, read off the inductive invariant. -/
theorem capInv_final [DecidableEq K] {n : Nat} (hn : 1 ≤ n)
    (kvs : List (K × T)) (hnd : (kvs.map Prod.fst).Nodup) :
    CapInv n kvs ((LRU.with_capacity n).putList kvs) := by
  have := capInv_putList hn kvs [] (LRU.with_capacity n) (capInv_init n)
    (by simpa using hnd)
  simpa using this

/-! ## The claims -/

/-- C1: for a cache built with `with_capacity n`, `n ≥ 1`, after putting
more than `n` pairs with pairwise-distinct keys (each key put once,
nothing gotten), `get` on the earliest-inserted key returns none, and
`get` on each of the last `n` keys inserted (the indices `i` with
`length - n ≤ i`) returns the value that was put for it. -/
theorem C1_capacity_bound {K T : Type} [DecidableEq K] (n : Nat)
    (kvs : List (K × T)) (hn : 1 ≤ n) (hnd : (kvs.map Prod.fst).Nodup)
    (hlen : n < kvs.length) :
    (∀ p, kvs[0]? = some p →
      (((LRU.with_capacity n : LRU K T).putList kvs).get p.1).1 = none) ∧
    (∀ i p, kvs[i]? = some p → kvs.length - n ≤ i →
      (((LRU.with_capacity n : LRU K T).putList kvs).get p.1).1 = some p.2) := by
  obtain ⟨hcap, hlen2, hhead, htail, hcount, hdead, hlive, hmapOK, hmapDom⟩ :=
    capInv_final hn kvs hnd
  constructor
  · intro p hp
    have hlk := hmapOK 0 p hp
    have hg0 := hdead 0 (by omega)
    simp [LRU.get, hlk, hg0]
  · intro i p hp hge
    have hlk := hmapOK i p hp
    have hgi := hlive i p hp hge
    simp [LRU.get, hlk, hgi]

/-- Witness for C1 at capacity 1 with the two pairs `(5, 50), (7, 70)`:
the evicted first key misses, the last key returns its value. -/
theorem C1_capacity_bound_witness :
    (1 ≤ 1 ∧ (([(5, 50), (7, 70)] : List (Nat × Nat)).map Prod.fst).Nodup ∧
      1 < ([(5, 50), (7, 70)] : List (Nat × Nat)).length) ∧
    (((LRU.with_capacity 1 : LRU Nat Nat).putList [(5, 50), (7, 70)]).get 5).1 =
      none ∧
    (((LRU.with_capacity 1 : LRU Nat Nat).putList [(5, 50), (7, 70)]).get 7).1 =
      some 70 := by
  refine ⟨⟨by decide, by decide, by decide⟩, ?_, ?_⟩
  · exact (C1_capacity_bound 1 [(5, 50), (7, 70)] (by decide) (by decide)
      (by decide)).1 (5, 50) (by decide)
  · exact (C1_capacity_bound 1 [(5, 50), (7, 70)] (by decide) (by decide)
      (by decide)).2 1 (7, 70) (by decide) (by decide)

/-- C2: capacity 3, puts of keys 1..5 (key `k` carries value `10 + k`,
allocating slot `k - 1`), then `get 3`, then `get 4`.  The back-to-front
value order is `14, 13, 15` (keys `4, 3, 5`), the front of the list is
key 5's node (slot 4, to which the index maps key 5), and the next put
of a fresh key evicts exactly that node: afterwards key 5 misses while
keys 3 and 4 still return their values. -/
theorem C2_recency_refresh :
    (((((LRU.with_capacity 3 : LRU Nat Nat).putList
        [(1, 11), (2, 12), (3, 13), (4, 14), (5, 15)]).get 3).2.get 4).2.list.tail =
      some 3 ∧
     mapLookup ((((LRU.with_capacity 3 : LRU Nat Nat).putList
        [(1, 11), (2, 12), (3, 13), (4, 14), (5, 15)]).get 3).2.get 4).2.map 4 =
      some 3) ∧
    runIter ((((LRU.with_capacity 3 : LRU Nat Nat).putList
        [(1, 11), (2, 12), (3, 13), (4, 14), (5, 15)]).get 3).2.get 4).2.list.heap
      [false, false, false, false]
      ((((LRU.with_capacity 3 : LRU Nat Nat).putList
        [(1, 11), (2, 12), (3, 13), (4, 14), (5, 15)]).get 3).2.get 4).2.list.iter =
      [some 14, some 13, some 15, none] ∧
    (((((LRU.with_capacity 3 : LRU Nat Nat).putList
        [(1, 11), (2, 12), (3, 13), (4, 14), (5, 15)]).get 3).2.get 4).2.list.head =
      some 4 ∧
     mapLookup ((((LRU.with_capacity 3 : LRU Nat Nat).putList
        [(1, 11), (2, 12), (3, 13), (4, 14), (5, 15)]).get 3).2.get 4).2.map 5 =
      some 4) ∧
    hGet (((((LRU.with_capacity 3 : LRU Nat Nat).putList
        [(1, 11), (2, 12), (3, 13), (4, 14), (5, 15)]).get 3).2.get 4).2.put 6 16).list.heap
      4 = none ∧
    ((((((LRU.with_capacity 3 : LRU Nat Nat).putList
        [(1, 11), (2, 12), (3, 13), (4, 14), (5, 15)]).get 3).2.get 4).2.put 6 16).get 5).1 =
      none ∧
    ((((((LRU.with_capacity 3 : LRU Nat Nat).putList
        [(1, 11), (2, 12), (3, 13), (4, 14), (5, 15)]).get 3).2.get 4).2.put 6 16).get 3).1 =
      some 13 ∧
    ((((((LRU.with_capacity 3 : LRU Nat Nat).putList
        [(1, 11), (2, 12), (3, 13), (4, 14), (5, 15)]).get 3).2.get 4).2.put 6 16).get 4).1 =
      some 14 := by
  decide

/-- C3 counterexample: for the list built by `push_front` of 1,2,3,4,
the claim predicts that alternating `next`/`next_back` yields the four
elements once (4,1,3,2) and then `none` from both ends; the code instead
keeps yielding (the cursors pass each other without coordination), so
the predicted output sequence is wrong at the fifth call already. -/
theorem C3_counterexample :
    ¬ (runIter ((((LList.new.push_front 1).push_front 2).push_front 3).push_front 4 :
        LList Nat).heap
      [true, false, true, false, true, false, true, false, true, false]
      ((((LList.new.push_front 1).push_front 2).push_front 3).push_front 4 :
        LList Nat).iter =
      [some 4, some 1, some 3, some 2, none, none, none, none, none, none]) := by
  decide

/-- C3 as amended: the two cursors of the iterator are independent, so
alternating `next`/`next_back` on the list 4,3,2,1 yields
`4, 1, 3, 2, 2, 3, 1, 4` — each direction traverses the whole list and
every element is yielded exactly twice (once per direction) — and only
then do both `next` and `next_back` return `none`. -/
theorem C3_amended_interleaved_iteration :
    runIter ((((LList.new.push_front 1).push_front 2).push_front 3).push_front 4 :
        LList Nat).heap
      [true, false, true, false, true, false, true, false, true, false]
      ((((LList.new.push_front 1).push_front 2).push_front 3).push_front 4 :
        LList Nat).iter =
      [some 4, some 1, some 3, some 2, some 2, some 3, some 1, some 4,
        none, none] := by
  decide

/-- C4 counterexample: `remove_node` does not preserve the invariant.
On the two-element list `[1, 2]` (slots 0, 1) the invariant holds, but
after `remove_node` of slot 1 the count is still 2 while only one node
is reachable from the head — and the count/emptiness invariant is
violated. -/
theorem C4_counterexample :
    countInv (((LList.new.push_back 1).push_back 2 : LList Nat)) ∧
    ¬ countInv (((LList.new.push_back 1).push_back 2 : LList Nat).remove_node 1) := by
  decide

/-- C4 as amended: `push_front`, `push_back`, `pop_front`, `pop_back`
preserve the invariant that the count equals the number of nodes
reachable by forward traversal from the head and that the count is 0 iff
head and tail are both absent, and `move_node_to_back` preserves it when
applied to a live node handle; `remove_node` alone does not (it unlinks
a node without decrementing the count), and `push_node_back` alone does
not (it relinks a node without incrementing the count) — only their
composition `move_node_to_back` restores the invariant. -/
theorem C4_amended_ops_preserve_countInv {T : Type} (l : LList T)
    (hwf : ∃ ch, ListRep l ch) (v : T) :
    countInv (l.push_front v) ∧ countInv (l.push_back v) ∧
    countInv (l.pop_front).2 ∧ countInv (l.pop_back).2 ∧
    (∀ i, (hGet l.heap i).isSome = true → countInv (l.move_node_to_back i)) := by
  rcases hwf with ⟨ch, hr⟩
  refine ⟨rep_countInv (push_front_rep hr v), rep_countInv (push_back_rep hr v),
    ?_, ?_, ?_⟩
  · cases ch with
    | nil =>
      rw [pop_front_nil hr]
      exact rep_countInv hr
    | cons i rest => exact rep_countInv (pop_front_rep hr).2.1
  · cases hgl : ch.getLast? with
    | none =>
      have hch : ch = [] := List.getLast?_eq_none_iff.mp hgl
      subst hch
      rw [pop_back_nil hr]
      exact rep_countInv hr
    | some a =>
      rcases exists_concat_of_getLast? hgl with ⟨ch₀, rfl⟩
      exact rep_countInv (pop_back_rep hr).2
  · intro i hi
    have hmem : i ∈ ch := (hr.domain i).mpr hi
    rcases List.append_of_mem hmem with ⟨a, b, rfl⟩
    exact rep_countInv (move_node_to_back_rep hr)

/-- Witness for the amended C4 at the one-element list `[1]`. -/
theorem C4_amended_witness :
    countInv (((LList.new : LList Nat).push_back 1).push_front 9) ∧
    countInv (((LList.new : LList Nat).push_back 1).push_back 9) ∧
    countInv (((LList.new : LList Nat).push_back 1).pop_front).2 ∧
    countInv (((LList.new : LList Nat).push_back 1).pop_back).2 ∧
    countInv (((LList.new : LList Nat).push_back 1).move_node_to_back 0) := by
  have h := C4_amended_ops_preserve_countInv ((LList.new : LList Nat).push_back 1)
    ⟨[0], push_back_rep new_rep 1⟩ 9
  exact ⟨h.1, h.2.1, h.2.2.1, h.2.2.2.1, h.2.2.2.2 0 (by decide)⟩

/-- C5: whenever the index resolves key `k` to a live node (slot `i`),
`put k v2` overwrites that node's value in place and moves the very same
node to the back of the list, leaving the index untouched and the list
length and allocation count unchanged; a following `get k` returns
`v2`. -/
theorem C5_put_live_overwrite {K T : Type} [DecidableEq K] (c : LRU K T)
    (k : K) (i : Nat) (nd : Node T) (v2 : T)
    (hlk : mapLookup c.map k = some i) (hg : hGet c.list.heap i = some nd) :
    (c.put k v2).map = c.map ∧
    (c.put k v2).list.count = c.list.count ∧
    (c.put k v2).list.heap.length = c.list.heap.length ∧
    (c.put k v2).list.tail = some i ∧
    nodeValue (hGet (c.put k v2).list.heap i) = some v2 ∧
    ((c.put k v2).get k).1 = some v2 := by
  have hres : c.resolve k = some i := by simp [LRU.resolve, hlk, hg]
  have hput : c.put k v2 =
      { c with list := (c.list.setValue i v2).move_node_to_back i } := by
    simp only [LRU.put, hres]
  have hvv : nodeValue
      (hGet ((c.list.setValue i v2).move_node_to_back i).heap i) = some v2 := by
    rw [(move_node_to_back_sameValues _ i) i, setValue_value hg v2]
    simp [nodeValue]
  rw [hput]
  refine ⟨rfl, ?_, ?_, ?_, hvv, ?_⟩
  · show ((c.list.setValue i v2).move_node_to_back i).count = c.list.count
    rw [move_node_to_back_count, setValue_count]
  · show ((c.list.setValue i v2).move_node_to_back i).heap.length =
      c.list.heap.length
    rw [move_node_to_back_length, setValue_length]
  · exact move_node_to_back_tail _ _
  · rcases nodeValue_eq_some hvv with ⟨nd', hget', hval⟩
    have hlk2 : mapLookup ({ c with
        list := (c.list.setValue i v2).move_node_to_back i } : LRU K T).map k =
        some i := hlk
    show (LRU.get _ k).1 = some v2
    simp only [LRU.get, hlk2, hget']
    simp [hval]

/-- Witness for C5: a capacity-2 cache holding key 1, overwritten
with 99. -/
theorem C5_put_live_overwrite_witness :
    (mapLookup ((LRU.with_capacity 2 : LRU Nat Nat).put 1 10).map 1 = some 0 ∧
     hGet ((LRU.with_capacity 2 : LRU Nat Nat).put 1 10).list.heap 0 =
       some ⟨10, none, none⟩) ∧
    ((((LRU.with_capacity 2 : LRU Nat Nat).put 1 10).put 1 99).map =
      ((LRU.with_capacity 2 : LRU Nat Nat).put 1 10).map ∧
     (((LRU.with_capacity 2 : LRU Nat Nat).put 1 10).put 1 99).list.tail =
      some 0 ∧
     ((((LRU.with_capacity 2 : LRU Nat Nat).put 1 10).put 1 99).get 1).1 =
      some 99) := by
  have h := C5_put_live_overwrite ((LRU.with_capacity 2 : LRU Nat Nat).put 1 10)
    1 0 ⟨10, none, none⟩ 99 (by decide) (by decide)
  exact ⟨⟨by decide, by decide⟩, h.1, h.2.2.2.1, h.2.2.2.2.2⟩

/-- C6: `get` mutates at most the recency order — it never changes the
index, the capacity, the list count, the number of heap slots, or any
stored value; and on a miss (key absent, or its weak handle dead) it
returns `none` with the cache unchanged. -/
theorem C6_get_frame {K T : Type} [DecidableEq K] (c : LRU K T) (k : K) :
    ((c.get k).2).map = c.map ∧
    ((c.get k).2).capacity = c.capacity ∧
    ((c.get k).2).list.count = c.list.count ∧
    ((c.get k).2).list.heap.length = c.list.heap.length ∧
    (∀ j, nodeValue (hGet ((c.get k).2).list.heap j) =
      nodeValue (hGet c.list.heap j)) ∧
    ((mapLookup c.map k = none ∨
      (∃ wid, mapLookup c.map k = some wid ∧ hGet c.list.heap wid = none)) →
      c.get k = (none, c)) := by
  cases hlk : mapLookup c.map k with
  | none =>
    have hone : c.get k = (none, c) := by simp [LRU.get, hlk]
    rw [hone]
    exact ⟨rfl, rfl, rfl, rfl, fun j => rfl, fun _ => rfl⟩
  | some wid =>
    cases hg : hGet c.list.heap wid with
    | none =>
      have hone : c.get k = (none, c) := by simp [LRU.get, hlk, hg]
      rw [hone]
      exact ⟨rfl, rfl, rfl, rfl, fun j => rfl, fun _ => rfl⟩
    | some nd =>
      have hone : c.get k =
          (some nd.value, { c with list := c.list.move_node_to_back wid }) := by
        simp only [LRU.get, hlk, hg]
      rw [hone]
      refine ⟨rfl, rfl, move_node_to_back_count _ _, move_node_to_back_length _ _,
        fun j => (move_node_to_back_sameValues _ _) j, ?_⟩
      rintro (hnone | ⟨wid', hlk', hg'⟩)
      · cases hnone
      · obtain rfl : wid = wid' := Option.some.inj hlk'
        rw [hg] at hg'
        cases hg'

/-- Witness for C6: a missing key on a one-entry cache leaves the cache
untouched, and a hit preserves index, capacity, count and values. -/
theorem C6_get_frame_witness :
    ((LRU.with_capacity 2 : LRU Nat Nat).put 1 10).get 5 =
      (none, (LRU.with_capacity 2 : LRU Nat Nat).put 1 10) ∧
    ((((LRU.with_capacity 2 : LRU Nat Nat).put 1 10).get 1).2).map =
      ((LRU.with_capacity 2 : LRU Nat Nat).put 1 10).map ∧
    ((((LRU.with_capacity 2 : LRU Nat Nat).put 1 10).get 1).2).list.count =
      ((LRU.with_capacity 2 : LRU Nat Nat).put 1 10).list.count := by
  refine ⟨?_, ?_, ?_⟩
  · exact (C6_get_frame ((LRU.with_capacity 2 : LRU Nat Nat).put 1 10) 5).2.2.2.2.2
      (Or.inl (by decide))
  · exact (C6_get_frame ((LRU.with_capacity 2 : LRU Nat Nat).put 1 10) 1).1
  · exact (C6_get_frame ((LRU.with_capacity 2 : LRU Nat Nat).put 1 10) 1).2.2.1

/-- C7: eviction does not remove the evicted key's index entry.  With
capacity 1, after putting keys 1 then 2, the index still maps key 1 to
its (freed, hence unresolvable) slot 0, the index holds 2 entries —
more than the capacity — while the list length stays at 1. -/
theorem C7_eviction_tombstone :
    mapLookup ((LRU.with_capacity 1 : LRU Nat Nat).putList
      [(1, 10), (2, 20)]).map 1 = some 0 ∧
    hGet ((LRU.with_capacity 1 : LRU Nat Nat).putList
      [(1, 10), (2, 20)]).list.heap 0 = none ∧
    ((LRU.with_capacity 1 : LRU Nat Nat).putList [(1, 10), (2, 20)]).map.length =
      2 ∧
    ((LRU.with_capacity 1 : LRU Nat Nat).putList
      [(1, 10), (2, 20)]).capacity <
      ((LRU.with_capacity 1 : LRU Nat Nat).putList [(1, 10), (2, 20)]).map.length ∧
    ((LRU.with_capacity 1 : LRU Nat Nat).putList [(1, 10), (2, 20)]).list.count =
      1 := by
  decide

/-- C8: on any cache of capacity at least 1, after any prior sequence of
get/put operations, `put k v` immediately followed by `get k` returns
`v` — the node just written is never the node evicted by that same
put. -/
theorem C8_put_then_get {K T : Type} [DecidableEq K] (n : Nat) (hn : 1 ≤ n)
    (ops : List (Op K T)) (k : K) (v : T) :
    ((((LRU.with_capacity n : LRU K T).runOps ops).put k v).get k).1 = some v := by
  have hwf := runOps_wf (with_capacity_wf n) ops
  have hcap : ((LRU.with_capacity n : LRU K T).runOps ops).capacity = n := by
    rw [runOps_capacity]
    rfl
  exact put_get_self hwf (by omega) k v

/-- Witness for C8 on a capacity-1 cache after a put/get history. -/
theorem C8_put_then_get_witness :
    1 ≤ 1 ∧
    ((((LRU.with_capacity 1 : LRU Nat Nat).runOps
      [Op.put 3 30, Op.get 3, Op.put 4 40]).put 9 90).get 9).1 = some 90 :=
  ⟨by decide, C8_put_then_get 1 (by decide) [Op.put 3 30, Op.get 3, Op.put 4 40] 9 90⟩

/-- C9: on a cache built with `with_capacity 0`, after any sequence of
get/put operations the list is empty (every put's node is evicted by
that same put), and `get` on any key returns `none`. -/
theorem C9_zero_capacity {K T : Type} [DecidableEq K] (ops : List (Op K T))
    (k : K) :
    (((LRU.with_capacity 0 : LRU K T).runOps ops).get k).1 = none ∧
    ((LRU.with_capacity 0 : LRU K T).runOps ops).list.count = 0 ∧
    ((LRU.with_capacity 0 : LRU K T).runOps ops).list.head = none ∧
    ((LRU.with_capacity 0 : LRU K T).runOps ops).list.tail = none := by
  have h0 : ZeroInv (LRU.with_capacity 0 : LRU K T) := zeroInv_init
  have h := zeroInv_runOps h0 ops
  refine ⟨?_, h.2.2.2.1, h.2.1, h.2.2.1⟩
  rw [zeroInv_get h k]

/-- C10: no get/put sequence on a cache built with `with_capacity n`
reaches a panic.  The fallible steps of the Rust code are the `unwrap`s
(each syntactically guarded by an `is_none`/`is_some` test of the very
option it unwraps, hence modelled by total matches), the `RefCell`
borrows, and the `usize` decrement `count -= 1`; the only operation
with a state-dependent panic condition reachable from `get`/`put` is
the `pop_front` inside `put` (underflow, or `next.borrow_mut()` hitting
the cell still held by `head.borrow_mut()`), captured by `putPanics` —
and no reachable cache state triggers it. -/
theorem C10_put_never_panics {K T : Type} [DecidableEq K] (n : Nat)
    (ops : List (Op K T)) (k : K) (v : T) :
    ¬ ((LRU.with_capacity n : LRU K T).runOps ops).putPanics k v :=
  wf_not_putPanics (runOps_wf (with_capacity_wf n) ops) k v

/-- Witness for C10 at a concrete over-capacity put. -/
theorem C10_put_never_panics_witness :
    ¬ ((LRU.with_capacity 1 : LRU Nat Nat).runOps
      [Op.put 1 10, Op.get 1]).putPanics 2 20 :=
  C10_put_never_panics 1 [Op.put 1 10, Op.get 1] 2 20

end LruCache
